import Mathlib

/-!
Verification of the chess-repertoire-optimizer core against its source.

The development shallowly embeds the Rust sources:
  src/position.rs            (Fen canonicalization, Position graph, apply_move, apply_uci)
  src/conversion.rs          (move_matches_bitmove and its helpers)
  src/repertoire_optimizer.rs (builder, normalizer, propagation engine)
  src/opening_book/cache.rs  (memoizing cache in front of the book provider)

Conventions of the embedding:
  * Rust f64 probability arithmetic is modelled with exact rationals.
  * Rust String values are modelled as lists of characters; byte indices
    returned by rfind become character indices (the inputs of interest are
    ASCII FEN strings, where the two coincide).
  * Rust HashMap is modelled as an association list whose key comparison is
    the equality of the map's key type; HashMap.insert keeps the stored key
    and replaces the value, entry().or_insert keeps the stored entry.
  * The external rules engine (pleco) is an opaque parameter: a structure of
    functions over an abstract board type, as specified at its interface
    boundary.  Panicking unwraps in the source surface as Option in the
    embedding.
-/

/-- Last index of a character in a list, mirroring Rust str::rfind for a
single-character pattern (position.rs, Fen::new). -/
def rfindIdx : List Char → Char → Option Nat
  | [], _ => none
  | x :: xs, c =>
    match rfindIdx xs c with
    | some i => some (i + 1)
    | none => if x = c then some 0 else none

/-- The canonical position key of position.rs: the full description string
together with the shortened string obtained by truncating at the
second-to-last space.  Corresponds to struct Fen (fen_str,
shortened_fen_str). -/
structure FenT where
  fenStr : List Char
  shortenedFenStr : List Char
  deriving DecidableEq, Repr

/-- Fen::new (position.rs lines 79-88): find the last space, find the last
space before it, truncate there.  The two unwraps of the source surface as
Option: the result is none exactly when the input has fewer than two
spaces. -/
def fenNew (s : List Char) : Option FenT :=
  match rfindIdx s ' ' with
  | none => none
  | some lastSpace =>
    match rfindIdx (s.take lastSpace) ' ' with
    | none => none
    | some secondToLast => some ⟨s, s.take secondToLast⟩

/-- The Eq and Hash impls of Fen compare only the shortened string
(position.rs lines 99-110). -/
def fenBeq (a b : FenT) : Bool :=
  a.shortenedFenStr = b.shortenedFenStr

/-- The Hash impl of Fen feeds only the shortened string to the hasher; for
any hasher h the hash of a Fen is h of its shortened string. -/
def fenHash (h : List Char → Nat) (f : FenT) : Nat :=
  h f.shortenedFenStr

/-- The full FEN of the initial chess position (Fen::starting_board). -/
def startingFenStr : List Char :=
  ("rnbqkbnr/pppppppp/8/8/8/8/PPPPPPPP/RNBQKBNR w KQkq - 0 1").toList

/-- Fen::starting_board() (position.rs line 90): Fen::new applied to the
initial-position FEN; the shortened form drops the two move counters. -/
def startingFen : FenT :=
  ⟨startingFenStr, ("rnbqkbnr/pppppppp/8/8/8/8/PPPPPPPP/RNBQKBNR w KQkq -").toList⟩

theorem fenNew_startingFenStr : fenNew startingFenStr = some startingFen := by
  decide

theorem fenBeq_refl (a : FenT) : fenBeq a a = true := by
  simp [fenBeq]

theorem fenBeq_symm {a b : FenT} (h : fenBeq a b = true) : fenBeq b a = true := by
  simp [fenBeq] at *; exact h.symm

theorem fenBeq_trans {a b c : FenT} (h1 : fenBeq a b = true)
    (h2 : fenBeq b c = true) : fenBeq a c = true := by
  simp [fenBeq] at *; exact h1.trans h2

theorem rfindIdx_eq_none {l : List Char} {c : Char} (h : c ∉ l) :
    rfindIdx l c = none := by
  induction l with
  | nil => rfl
  | cons x xs ih =>
    simp only [List.mem_cons, not_or] at h
    have hx : x ≠ c := fun hxc => h.1 hxc.symm
    simp [rfindIdx, ih h.2, hx]

theorem rfindIdx_append_last {pre post : List Char} {c : Char} (h : c ∉ post) :
    rfindIdx (pre ++ c :: post) c = some pre.length := by
  induction pre with
  | nil => simp [rfindIdx, rfindIdx_eq_none h]
  | cons x xs ih => simp [rfindIdx, ih]

theorem not_mem_of_rfindIdx_eq_none {l : List Char} {c : Char}
    (h : rfindIdx l c = none) : c ∉ l := by
  induction l with
  | nil => simp
  | cons x xs ih =>
    unfold rfindIdx at h
    cases hx : rfindIdx xs c with
    | some i => rw [hx] at h; simp at h
    | none =>
      rw [hx] at h
      by_cases hxc : x = c
      · rw [if_pos hxc] at h; simp at h
      · simp only [List.mem_cons]
        exact not_or.mpr ⟨fun hc => hxc hc.symm, ih hx⟩

theorem rfindIdx_isSome_of_mem {l : List Char} {c : Char} (h : c ∈ l) :
    (rfindIdx l c).isSome := by
  cases hx : rfindIdx l c with
  | some i => rfl
  | none => exact absurd h (not_mem_of_rfindIdx_eq_none hx)

theorem rfindIdx_spec {l : List Char} {c : Char} {i : Nat}
    (h : rfindIdx l c = some i) :
    ∃ pre post, l = pre ++ c :: post ∧ pre.length = i ∧ c ∉ post := by
  induction l generalizing i with
  | nil => simp [rfindIdx] at h
  | cons x xs ih =>
    unfold rfindIdx at h
    cases hx : rfindIdx xs c with
    | some j =>
      rw [hx] at h
      obtain ⟨pre, post, hl, hlen, hmem⟩ := ih hx
      simp only [Option.some.injEq] at h
      exact ⟨x :: pre, post, by simp [hl], by simp [hlen, ← h], hmem⟩
    | none =>
      rw [hx] at h
      by_cases hxc : x = c
      · rw [if_pos hxc] at h
        injection h with h
        refine ⟨[], xs, by simp [hxc], by simpa using h, ?_⟩
        exact not_mem_of_rfindIdx_eq_none hx
      · rw [if_neg hxc] at h; simp at h

/-- The key splitting fact about Fen::new: on a description of the form
"prefix SP fieldA SP fieldB" where the last two fields contain no space, the
canonical (shortened) part is exactly the prefix. -/
theorem fenNew_split {p a b : List Char} (ha : ' ' ∉ a) (hb : ' ' ∉ b) :
    fenNew (p ++ ' ' :: a ++ ' ' :: b) = some ⟨p ++ ' ' :: a ++ ' ' :: b, p⟩ := by
  have h1 : rfindIdx ((p ++ ' ' :: a) ++ ' ' :: b) ' ' = some (p ++ ' ' :: a).length :=
    rfindIdx_append_last hb
  have htake1 : ((p ++ ' ' :: a) ++ ' ' :: b).take (p ++ ' ' :: a).length = p ++ ' ' :: a :=
    List.take_left _ _
  have h2 : rfindIdx (p ++ ' ' :: a) ' ' = some p.length :=
    rfindIdx_append_last ha
  have htake2 : ((p ++ ' ' :: a) ++ ' ' :: b).take p.length = p := by
    rw [List.append_assoc]
    exact List.take_left _ _
  simp only [fenNew, h1, htake1, h2, htake2]

/-- Fen::new succeeds on every description with at least two spaces, i.e. on
every full six-field position description. -/
theorem fenNew_isSome_of_two_spaces {s : List Char} (h : 2 ≤ s.count ' ') :
    (fenNew s).isSome := by
  have hmem : ' ' ∈ s := List.count_pos_iff.mp (by omega)
  obtain ⟨i, hi⟩ := Option.isSome_iff_exists.mp (rfindIdx_isSome_of_mem hmem)
  obtain ⟨pre, post, hs, hlen, hpost⟩ := rfindIdx_spec hi
  have hcpost : post.count ' ' = 0 := List.count_eq_zero.mpr hpost
  have hcount : s.count ' ' = pre.count ' ' + 1 := by
    subst hs; simp [List.count_append, List.count_cons, hcpost]
  have hpre : ' ' ∈ pre := List.count_pos_iff.mp (by omega)
  obtain ⟨j, hj⟩ := Option.isSome_iff_exists.mp (rfindIdx_isSome_of_mem hpre)
  have htake : s.take i = pre := by
    subst hs; rw [← hlen]; exact List.take_left _ _
  unfold fenNew
  simp only [hi, htake, hj, Option.isSome_some]

/-- pleco::Player. -/
inductive PlayerT where
  | white
  | black
  deriving DecidableEq, Repr

/-- pleco::core::File (files a-h of the board). -/
inductive FileT where
  | fa | fb | fc | fd | fe | ff | fg | fh
  deriving DecidableEq, Repr

/-- pleco::core::Rank. -/
inductive RankT where
  | r1 | r2 | r3 | r4 | r5 | r6 | r7 | r8
  deriving DecidableEq, Repr

/-- pleco::core::sq::SQ, observed through its file and rank accessors. -/
structure SQT where
  file : FileT
  rank : RankT
  deriving DecidableEq, Repr

/-- chess_pgn_parser::Piece. -/
inductive CpgPiece where
  | king | queen | rook | bishop | knight | pawn
  deriving DecidableEq, Repr

/-- chess_pgn_parser::Square.  The 81-variant enum encodes an optionally
known file and an optionally known rank (A1..H8, AX..HX, X1..X8, XX);
conversion.rs observes a Square only through which file/rank group of the
enum it falls in, which this record captures exactly. -/
structure SquareT where
  fileOf : Option FileT
  rankOf : Option RankT
  deriving DecidableEq, Repr

/-- chess_pgn_parser::Move. -/
inductive MoveT where
  | castleKingside
  | castleQueenside
  | basicMove (piece : CpgPiece) (toSq : SquareT) (fromSq : SquareT)
      (isCapture : Bool) (promotedTo : Option CpgPiece)
  deriving DecidableEq, Repr

/-- pleco::core::Piece (a colored piece or no piece). -/
inductive PieceT where
  | noPiece
  | whitePawn | whiteKnight | whiteBishop | whiteRook | whiteQueen | whiteKing
  | blackPawn | blackKnight | blackBishop | blackRook | blackQueen | blackKing
  deriving DecidableEq, Repr

/-- pleco::core::PieceType. -/
inductive PieceTypeT where
  | noType | p | n | b | r | q | k | allTypes
  deriving DecidableEq, Repr

/-- pleco::core::piece_move::BitMove, observed through the accessors used by
conversion.rs. -/
structure BitMoveT where
  isKingCastle : Bool
  isQueenCastle : Bool
  isCapture : Bool
  isPromo : Bool
  src : SQT
  dest : SQT
  promoPiece : PieceTypeT
  deriving DecidableEq, Repr

/-- conversion.rs equal_file: a recorded square with a known file matches
only that file; an unknown file matches anything. -/
def equalFile (sq1 : SquareT) (sq2 : SQT) : Bool :=
  match sq1.fileOf with
  | some f => sq2.file = f
  | none => true

/-- conversion.rs equal_rank. -/
def equalRank (sq1 : SquareT) (sq2 : SQT) : Bool :=
  match sq1.rankOf with
  | some r => sq2.rank = r
  | none => true

/-- conversion.rs equal_piece: a recorded piece matches the board piece of
either color. -/
def equalPiece (p1 : CpgPiece) (p2 : PieceT) : Bool :=
  match p1 with
  | .bishop => p2 = .whiteBishop || p2 = .blackBishop
  | .knight => p2 = .whiteKnight || p2 = .blackKnight
  | .queen => p2 = .whiteQueen || p2 = .blackQueen
  | .rook => p2 = .whiteRook || p2 = .blackRook
  | .king => p2 = .whiteKing || p2 = .blackKing
  | .pawn => p2 = .whitePawn || p2 = .blackPawn

/-- conversion.rs equal_promotion. -/
def equalPromotion (po : Option CpgPiece) (bmv : BitMoveT) : Bool :=
  match po with
  | some p1 =>
    if !bmv.isPromo then false
    else
      match p1 with
      | .bishop => bmv.promoPiece = PieceTypeT.b
      | .knight => bmv.promoPiece = PieceTypeT.n
      | .queen => bmv.promoPiece = PieceTypeT.q
      | .rook => bmv.promoPiece = PieceTypeT.r
      | _ => false
  | none => !bmv.isPromo

/-- conversion.rs move_matches_bitmove.  The board argument is observed only
through piece_at_sq, passed here as a function. -/
def moveMatchesBitmove (mv : MoveT) (bmv : BitMoveT)
    (pieceAtSq : SQT → PieceT) : Bool :=
  match mv with
  | .castleKingside => bmv.isKingCastle
  | .castleQueenside => bmv.isQueenCastle
  | .basicMove piece toSq fromSq isCapture promotedTo =>
    (isCapture == bmv.isCapture)
      && equalFile toSq bmv.dest
      && equalRank toSq bmv.dest
      && equalPiece piece (pieceAtSq bmv.src)
      && equalFile fromSq bmv.src
      && equalRank fromSq bmv.src
      && equalPromotion promotedTo bmv

/-- position.rs AnyMove: either a structured repertoire move or a raw
book move-code string. -/
inductive AnyMoveT where
  | modelMove (m : MoveT)
  | uci (s : List Char)
  deriving DecidableEq, Repr

/-- position.rs Transition: an edge to a destination key carrying a move
descriptor and a probability weight. -/
structure TransitionT where
  mv : AnyMoveT
  frequency : ℚ
  deriving DecidableEq, Repr

/-- error.rs Error, restricted to the move-resolution variants produced by
position.rs.  Both carry the full position description string (fen_str) and
the offending move; the source renders the move to text with Debug
formatting, the embedding carries the move value itself. -/
inductive ErrorT where
  | illegalMove (fenStr : List Char) (mv : AnyMoveT)
  | ambiguousMove (fenStr : List Char) (mv : AnyMoveT)
  deriving DecidableEq, Repr

/-- The external rules engine (pleco), specified at its interface boundary:
an abstract board type together with the operations position.rs consumes.
applyUciMove returns none when the move code is rejected (Rust: bool). -/
structure RulesEngine (B : Type) where
  generateMoves : B → List BitMoveT
  applyBitMove : B → BitMoveT → B
  applyUciMove : B → List Char → Option B
  boardFen : B → List Char
  turn : B → PlayerT
  pieceAtSq : B → SQT → PieceT
  fromFen : List Char → B

/-- position.rs Position.  likeliestSequence holds the move list of the
cached likeliest arrival path (the cumulative-probability display component
of MoveSequence is not modelled; no verified claim touches it). -/
structure PositionT (B : Type) where
  fen : FenT
  board : B
  frequency : ℚ
  transitions : List (FenT × TransitionT)
  likeliestSequence : List AnyMoveT
  deriving DecidableEq, Repr

/-- position.rs PositionCache: the HashMap from canonical key to Position,
as an association list under Fen equality (fenBeq). -/
abbrev TreeT (B : Type) : Type := List (FenT × PositionT B)

/-- HashMap lookup under Fen equality: first entry whose key canonicalizes
equal to the query. -/
def findPos {B : Type} : TreeT B → FenT → Option (PositionT B)
  | [], _ => none
  | (k, p) :: t, q => if fenBeq k q then some p else findPos t q

/-- HashMap value replacement: replace the value stored under the first key
equal to the given one (keeping the stored key, as HashMap does), or append
a fresh entry. -/
def setPos {B : Type} : TreeT B → FenT → PositionT B → TreeT B
  | [], k, p => [(k, p)]
  | (k1, p1) :: t, k, p =>
    if fenBeq k1 k then (k1, p) :: t else (k1, p1) :: setPos t k p

/-- The fresh node PositionCache::position creates on a miss: board rebuilt
with Board::from_fen on the full description, zero frequency, no
transitions, empty likeliest sequence. -/
def newPosition {B : Type} (e : RulesEngine B) (fen : FenT) : PositionT B :=
  ⟨fen, e.fromFen fen.fenStr, 0, [], []⟩

/-- PositionCache::position (position.rs lines 297-305): get-or-create. -/
def getOrCreate {B : Type} (e : RulesEngine B) (t : TreeT B) (fen : FenT) :
    TreeT B × PositionT B :=
  match findPos t fen with
  | some p => (t, p)
  | none => (t ++ [(fen, newPosition e fen)], newPosition e fen)

/-- PositionCache::position_w_sequence: get-or-create where a fresh node
additionally records the given arrival move sequence. -/
def getOrCreateSeq {B : Type} (e : RulesEngine B) (t : TreeT B) (fen : FenT)
    (seq : List AnyMoveT) : TreeT B × PositionT B :=
  match findPos t fen with
  | some p => (t, p)
  | none =>
    let p := { newPosition e fen with likeliestSequence := seq }
    (t ++ [(fen, p)], p)

/-- HashMap::insert on the transitions map: overwrite the value under an
existing equal key (keeping the stored key), else append. -/
def insertT : List (FenT × TransitionT) → FenT → TransitionT →
    List (FenT × TransitionT)
  | [], k, v => [(k, v)]
  | (k1, v1) :: ts, k, v =>
    if fenBeq k1 k then (k1, v) :: ts else (k1, v1) :: insertT ts k v

/-- transitions.entry(key).or_insert(Transition with the given move and
frequency 0.0).frequency = freq (position.rs apply_uci, line 247): if an
entry exists its move descriptor is kept and only its frequency is set;
otherwise a fresh entry with the given move and frequency is added. -/
def entryOrInsertFreq : List (FenT × TransitionT) → FenT → AnyMoveT → ℚ →
    List (FenT × TransitionT)
  | [], k, mv, q => [(k, ⟨mv, q⟩)]
  | (k1, v1) :: ts, k, mv, q =>
    if fenBeq k1 k then (k1, ⟨v1.mv, q⟩) :: ts
    else (k1, v1) :: entryOrInsertFreq ts k mv q

/-- Lookup in a transitions map under Fen equality. -/
def findT : List (FenT × TransitionT) → FenT → Option TransitionT
  | [], _ => none
  | (k, v) :: ts, q => if fenBeq k q then some v else findT ts q

/-- position.rs apply_move (lines 224-239): filter the engine's legal moves
by structural match; zero matches is IllegalMove, more than one is
AmbiguousMove, exactly one is applied, the canonical key of the resulting
position derived, and an edge of weight 0.0 inserted (overwriting any
existing edge to that key).  The outer Option models the panic inside
Fen::new when the engine returns a FEN with fewer than two spaces. -/
def applyMove {B : Type} (e : RulesEngine B) (p : PositionT B) (mv : MoveT) :
    Option (Except ErrorT (FenT × PositionT B)) :=
  match (e.generateMoves p.board).filter
      (fun bmv => moveMatchesBitmove mv bmv (e.pieceAtSq p.board)) with
  | [] => some (.error (.illegalMove p.fen.fenStr (.modelMove mv)))
  | [bmv] =>
    match fenNew (e.boardFen (e.applyBitMove p.board bmv)) with
    | none => none
    | some newFen =>
      some (.ok (newFen,
        { p with transitions := insertT p.transitions newFen ⟨.modelMove mv, 0⟩ }))
  | _ :: _ :: _ => some (.error (.ambiguousMove p.fen.fenStr (.modelMove mv)))

/-- position.rs apply_uci (lines 241-249): apply a raw book move-code via
the engine; on rejection fail with IllegalMove; on success derive the
canonical key and set the edge's frequency through entry().or_insert. -/
def applyUci {B : Type} (e : RulesEngine B) (p : PositionT B) (uci : List Char)
    (frequency : ℚ) : Option (Except ErrorT (FenT × PositionT B)) :=
  match e.applyUciMove p.board uci with
  | none => some (.error (.illegalMove p.fen.fenStr (.uci uci)))
  | some newBoard =>
    match fenNew (e.boardFen newBoard) with
    | none => none
    | some newFen =>
      some (.ok (newFen,
        { p with transitions := entryOrInsertFreq p.transitions newFen (.uci uci) frequency }))

/-- The loop body chain of RepertoireOptimizer::add_game_to_repertoire
(repertoire_optimizer.rs lines 41-45), replaying the remaining moves from
the cursor node: push the move onto the recorded sequence, resolve it on
the cursor position, store the mutated position back, advance to the (get-
or-created) destination node.  On a resolution error the tree is returned
as already mutated (the source mutates in place and aborts with ?). -/
def addGameAux {B : Type} (e : RulesEngine B) :
    TreeT B → FenT → List AnyMoveT → List MoveT →
    Option (Except ErrorT Unit × TreeT B)
  | t, _, _, [] => some (.ok (), t)
  | t, fen, seq, mv :: rest =>
    match findPos t fen with
    | none => none
    | some p =>
      match applyMove e p mv with
      | none => none
      | some (.error err) => some (.error err, t)
      | some (.ok (newFen, p1)) =>
        addGameAux e
          (getOrCreateSeq e (setPos t fen p1) newFen
            (seq ++ [AnyMoveT.modelMove mv])).1
          newFen (seq ++ [AnyMoveT.modelMove mv]) rest

/-- RepertoireOptimizer::add_game_to_repertoire (lines 37-47): create the
root node for the starting position and replay the game's moves from it. -/
def addGame {B : Type} (e : RulesEngine B) (t : TreeT B) (ms : List MoveT) :
    Option (Except ErrorT Unit × TreeT B) :=
  addGameAux e (getOrCreate e t startingFen).1 startingFen [] ms

/-- RepertoireOptimizer::set_own_move_frequencies (lines 72-84): for every
node whose side to move is the owner and which has at least one outgoing
edge, overwrite every edge's probability with 1 / edge count. -/
def setOwnMoveFrequencies {B : Type} (e : RulesEngine B) (me : PlayerT)
    (t : TreeT B) : TreeT B :=
  t.map (fun kp =>
    let p := kp.2
    if e.turn p.board = me ∧ 0 < p.transitions.length then
      (kp.1, { p with transitions :=
        p.transitions.map (fun kt =>
          (kt.1, ⟨kt.2.mv, 1 / (p.transitions.length : ℚ)⟩)) })
    else kp)

/-- repertoire_optimizer.rs FrequencyDelta: a propagation work item. -/
structure FrequencyDelta where
  fen : FenT
  fdelta : ℚ
  ply : Nat
  sequence : List AnyMoveT
  deriving DecidableEq, Repr

/-- One iteration of the update_position_frequencies loop body for a popped
item that survived the zero-mass check (lines 99-114): get-or-create the
node, compute the average_book_length contribution, add the mass to the
node's frequency and overwrite its likeliest sequence, and produce the work
items pushed for its outgoing transitions, in transition order. -/
def processItem {B : Type} (e : RulesEngine B) (me : PlayerT) (t : TreeT B)
    (i : FrequencyDelta) : TreeT B × ℚ × List FrequencyDelta :=
  let res := getOrCreate e t i.fen
  let p := res.2
  let ablDelta :=
    if e.turn p.board = me ∧ p.transitions.length = 0 then
      ((i.ply / 2 : Nat) : ℚ) * i.fdelta
    else 0
  let t2 := setPos res.1 i.fen
    { p with frequency := p.frequency + i.fdelta, likeliestSequence := i.sequence }
  let pushed := p.transitions.map (fun kt =>
    ⟨kt.1, i.fdelta * kt.2.frequency, i.ply + 1, i.sequence ++ [kt.2.mv]⟩)
  (t2, ablDelta, pushed)

/-- The while-let loop of update_position_frequencies as a fuel-indexed
function over the LIFO work list (the head of the list is the top of the
stack; items pushed in transition order therefore enter reversed).  Returns
none when the fuel is exhausted before the work list empties; the final
tree and average_book_length accumulator otherwise. -/
def runProp {B : Type} (e : RulesEngine B) (me : PlayerT) :
    Nat → List FrequencyDelta → TreeT B → ℚ → Option (TreeT B × ℚ)
  | _, [], t, abl => some (t, abl)
  | 0, _ :: _, _, _ => none
  | fuel + 1, i :: wl, t, abl =>
    if i.fdelta = 0 then runProp e me fuel wl t abl
    else
      runProp e me fuel ((processItem e me t i).2.2.reverse ++ wl)
        (processItem e me t i).1 (abl + (processItem e me t i).2.1)

/-- RepertoireOptimizer::update_position_frequencies (lines 86-116): run the
propagation loop from the single seed item (starting position, mass 1,
ply 0, empty path). -/
def updatePositionFrequencies {B : Type} (e : RulesEngine B) (me : PlayerT)
    (t : TreeT B) (abl : ℚ) (fuel : Nat) : Option (TreeT B × ℚ) :=
  runProp e me fuel [⟨startingFen, 1, 0, []⟩] t abl

/-- The weighted transition structure a tree presents to the propagation
loop: for each key, the outgoing (destination, weight) pairs of its node,
empty for absent nodes (which the loop would lazily create with no
transitions). -/
def graphOf {B : Type} (t : TreeT B) (k : FenT) : List (FenT × ℚ) :=
  match findPos t k with
  | some p => p.transitions.map (fun kt => (kt.1, kt.2.frequency))
  | none => []

/-- The accumulated frequency a tree stores for a key (0 for absent nodes,
matching the zero initial frequency of lazily created nodes). -/
def freqOf {B : Type} (t : TreeT B) (k : FenT) : ℚ :=
  match findPos t k with
  | some p => p.frequency
  | none => 0

/-- Weight lookup in an edge list under Fen equality. -/
def lookupW : List (FenT × ℚ) → FenT → Option ℚ
  | [], _ => none
  | (k, w) :: l, q => if fenBeq k q then some w else lookupW l q

/-- Validity of a path (a list of successive destination keys) from a
source key: every step must be an existing edge. -/
def pathOkB (g : FenT → List (FenT × ℚ)) : FenT → List FenT → Bool
  | _, [] => true
  | u, k :: rest => (lookupW (g u) k).isSome && pathOkB g k rest

/-- Product of the edge weights along a path (0-weight for missing edges). -/
def pathProd (g : FenT → List (FenT × ℚ)) : FenT → List FenT → ℚ
  | _, [] => 1
  | u, k :: rest => ((lookupW (g u) k).getD 0) * pathProd g k rest

/-- The endpoint of a path starting at a given key. -/
def endKey (u : FenT) : List FenT → FenT
  | [] => u
  | k :: rest => endKey k rest

/-- All valid paths from a key of length at most the given bound, each path
enumerated once per choice of successive edge-list entries. -/
def allPathsLe (g : FenT → List (FenT × ℚ)) : FenT → Nat → List (List FenT)
  | _, 0 => [[]]
  | u, n + 1 =>
    [] :: (g u).flatMap (fun kw => (allPathsLe g kw.1 n).map (fun rest => kw.1 :: rest))

/-- Recursive form of the bounded path-mass sum: the total product-weight of
paths of length at most n from u that end at v. -/
def pathMass (g : FenT → List (FenT × ℚ)) (v : FenT) : Nat → FenT → ℚ
  | 0, u => if fenBeq u v then 1 else 0
  | n + 1, u =>
    (if fenBeq u v then 1 else 0)
      + ((g u).map (fun kw => kw.2 * pathMass g v n kw.1)).sum

/-- The sum, over all valid paths from root to v of length at most n, of the
products of edge weights along each path. -/
def pathSumUpTo (g : FenT → List (FenT × ℚ)) (root v : FenT) (n : Nat) : ℚ :=
  (((allPathsLe g root n).filter (fun rest => fenBeq (endKey root rest) v)).map
    (pathProd g root)).sum

/-- Whether a key is an unprepared leaf of the owner: side to move (as the
engine derives it from the full description) equals the owner and the node
has no outgoing transitions. -/
def leafOwnerB {B : Type} (e : RulesEngine B) (me : PlayerT)
    (g : FenT → List (FenT × ℚ)) (k : FenT) : Bool :=
  decide (e.turn (e.fromFen k.fenStr) = me) && (g k).isEmpty

/-- Recursive form of the average_book_length total contributed below a work
item of given mass and ply: floor((ply + path length) / 2) times the path's
arriving mass, over bounded valid paths ending at an unprepared owner
leaf. -/
def ablMass {B : Type} (e : RulesEngine B) (me : PlayerT)
    (g : FenT → List (FenT × ℚ)) : Nat → FenT → ℚ → Nat → ℚ
  | 0, u, c, ply =>
    if leafOwnerB e me g u then ((ply / 2 : Nat) : ℚ) * c else 0
  | n + 1, u, c, ply =>
    (if leafOwnerB e me g u then ((ply / 2 : Nat) : ℚ) * c else 0)
      + ((g u).map (fun kw => ablMass e me g n kw.1 (c * kw.2) (ply + 1))).sum

/-- The sum, over all valid root paths of length at most n ending at an
unprepared owner leaf, of floor(path length / 2) times the path's product
weight. -/
def ablSumUpTo {B : Type} (e : RulesEngine B) (me : PlayerT)
    (g : FenT → List (FenT × ℚ)) (root : FenT) (n : Nat) : ℚ :=
  (((allPathsLe g root n).filter
      (fun rest => leafOwnerB e me g (endKey root rest))).map
    (fun rest => ((rest.length / 2 : Nat) : ℚ) * pathProd g root rest)).sum

/-- All mass-weighted valid paths from u of length at least n vanish. -/
def Vanish (g : FenT → List (FenT × ℚ)) (c : ℚ) (u : FenT) (n : Nat) : Prop :=
  ∀ rest, pathOkB g u rest = true → n ≤ rest.length →
    c * pathProd g u rest = 0

/-- Every key's edge list has pairwise Fen-distinct destination keys (the
HashMap invariant of the transitions maps). -/
def GNodup (g : FenT → List (FenT × ℚ)) : Prop :=
  ∀ u, (g u).Pairwise (fun a b => fenBeq a.1 b.1 = false)

/-- Every node stored in the tree reports the side to move its key
determines: its board's turn equals the turn of a board rebuilt from the
query key's description (nodes are always built with from_fen of their
key). -/
def WfTurn {B : Type} (e : RulesEngine B) (t : TreeT B) : Prop :=
  ∀ k p, findPos t k = some p → e.turn p.board = e.turn (e.fromFen k.fenStr)

/-- The engine derives the same side to move from any two descriptions with
the same canonical key (the side-to-move field lies inside the canonical
part). -/
def TurnCoh {B : Type} (e : RulesEngine B) : Prop :=
  ∀ a b : FenT, fenBeq a b = true →
    e.turn (e.fromFen a.fenStr) = e.turn (e.fromFen b.fenStr)

/-- opening_book.rs BookMove. -/
structure BookMoveT where
  uci : List Char
  frequency : ℚ
  deriving DecidableEq, Repr

/-- cache.rs Cache state: the memo map from canonical key to the provider's
move list, and the dirty flag. -/
structure CacheState where
  cache : List (FenT × List BookMoveT)
  hasChanged : Bool
  deriving DecidableEq, Repr

/-- Lookup in the memo map under Fen equality. -/
def findB : List (FenT × List BookMoveT) → FenT → Option (List BookMoveT)
  | [], _ => none
  | (k, v) :: l, q => if fenBeq k q then some v else findB l q

/-- cache.rs impl OpeningBook for Cache, fn moves (lines 44-55): return the
memoized list for the key if present; otherwise invoke the underlying book
provider once, store its answer, and set the dirty flag.  The provider is
the oracle f; the third component logs the keys with which the provider was
invoked during the call. -/
def cacheMoves (f : FenT → List BookMoveT) (c : CacheState) (k : FenT) :
    List BookMoveT × CacheState × List FenT :=
  match findB c.cache k with
  | some v => (v, c, [])
  | none => (f k, ⟨c.cache ++ [(k, f k)], true⟩, [k])

/-- A sequence of moves() queries against the cache, collecting the answers
and the concatenated provider-invocation log. -/
def runQueries (f : FenT → List BookMoveT) (c : CacheState) :
    List FenT → List (List BookMoveT) × CacheState × List FenT
  | [] => ([], c, [])
  | k :: ks =>
    let step := cacheMoves f c k
    let rest := runQueries f step.2.1 ks
    (step.1 :: rest.1, rest.2.1, step.2.2 ++ rest.2.2)

/-- The serialized form of the memo map: bincode is an external lossless
codec, and the Serialize impl of Fen (position.rs lines 112-119) writes only
the shortened string; a persisted map is therefore a list of (shortened
string, move list) pairs. -/
def serCache (m : List (FenT × List BookMoveT)) : List (List Char × List BookMoveT) :=
  m.map (fun kv => (kv.1.shortenedFenStr, kv.2))

/-- The Deserialize impl of Fen (position.rs lines 121-132) rebuilds a Fen
whose full and shortened strings are both the persisted shortened string. -/
def deserCache (blob : List (List Char × List BookMoveT)) :
    List (FenT × List BookMoveT) :=
  blob.map (fun sv => (⟨sv.1, sv.1⟩, sv.2))

/-- Cache::save (cache.rs lines 31-36): serialize the current map and clear
the dirty flag; returns the written blob and the new state. -/
def saveCache (c : CacheState) : List (List Char × List BookMoveT) × CacheState :=
  (serCache c.cache, ⟨c.cache, false⟩)

/-- Cache::load (cache.rs lines 23-29): replace the map wholesale with the
deserialized blob and clear the dirty flag. -/
def loadCache (_c : CacheState) (blob : List (List Char × List BookMoveT)) :
    CacheState :=
  ⟨deserCache blob, false⟩

theorem findT_insertT_hit {ts : List (FenT × TransitionT)} {k q : FenT}
    {v : TransitionT} (h : fenBeq k q = true) :
    findT (insertT ts k v) q = some v := by
  induction ts with
  | nil => simp [insertT, findT, h]
  | cons kv ts ih =>
    obtain ⟨k1, v1⟩ := kv
    by_cases h1 : fenBeq k1 k
    · simp only [insertT, if_pos h1, findT, if_pos (fenBeq_trans h1 h)]
    · have h2 : fenBeq k1 q = false := by
        cases h3 : fenBeq k1 q
        · rfl
        · exact absurd (fenBeq_trans h3 (fenBeq_symm h)) (by simp [h1])
      simp only [insertT, if_neg h1, findT, h2, Bool.false_eq_true, if_false, ih]

theorem findT_insertT_other {ts : List (FenT × TransitionT)} {k q : FenT}
    {v : TransitionT} (h : fenBeq k q = false) :
    findT (insertT ts k v) q = findT ts q := by
  induction ts with
  | nil => simp [insertT, findT, h]
  | cons kv ts ih =>
    obtain ⟨k1, v1⟩ := kv
    by_cases h1 : fenBeq k1 k
    · have h2 : fenBeq k1 q = false := by
        cases h3 : fenBeq k1 q
        · rfl
        · exact absurd (fenBeq_trans (fenBeq_symm h1) h3) (by simp [h])
      simp [insertT, if_pos h1, findT, h2]
    · simp only [insertT, if_neg h1, findT]
      by_cases h3 : fenBeq k1 q
      · simp [h3]
      · simp [h3, ih]

theorem findT_entryOrInsertFreq_hit {ts : List (FenT × TransitionT)}
    {k q : FenT} {mv : AnyMoveT} {f : ℚ} {t0 : TransitionT}
    (h : fenBeq k q = true) (hfind : findT ts k = some t0) :
    findT (entryOrInsertFreq ts k mv f) q = some ⟨t0.mv, f⟩ := by
  induction ts with
  | nil => simp [findT] at hfind
  | cons kv ts ih =>
    obtain ⟨k1, v1⟩ := kv
    by_cases h1 : fenBeq k1 k
    · simp only [findT, if_pos h1, Option.some.injEq] at hfind
      simp only [entryOrInsertFreq, if_pos h1, findT,
        if_pos (fenBeq_trans h1 h), hfind]
    · have h2 : fenBeq k1 q = false := by
        cases h3 : fenBeq k1 q
        · rfl
        · exact absurd (fenBeq_trans h3 (fenBeq_symm h)) (by simp [h1])
      simp only [findT, if_neg h1] at hfind
      simp only [entryOrInsertFreq, if_neg h1, findT, h2, Bool.false_eq_true,
        if_false]
      exact ih hfind

theorem findT_entryOrInsertFreq_miss {ts : List (FenT × TransitionT)}
    {k q : FenT} {mv : AnyMoveT} {f : ℚ}
    (h : fenBeq k q = true) (hfind : findT ts k = none) :
    findT (entryOrInsertFreq ts k mv f) q = some ⟨mv, f⟩ := by
  induction ts with
  | nil => simp [entryOrInsertFreq, findT, h]
  | cons kv ts ih =>
    obtain ⟨k1, v1⟩ := kv
    by_cases h1 : fenBeq k1 k
    · simp [findT, if_pos h1] at hfind
    · have h2 : fenBeq k1 q = false := by
        cases h3 : fenBeq k1 q
        · rfl
        · exact absurd (fenBeq_trans h3 (fenBeq_symm h)) (by simp [h1])
      simp only [findT, if_neg h1] at hfind
      simp only [entryOrInsertFreq, if_neg h1, findT, h2, Bool.false_eq_true,
        if_false]
      exact ih hfind

theorem mem_insertT {ts : List (FenT × TransitionT)} {k : FenT}
    {v : TransitionT} {b : FenT × TransitionT} (h : b ∈ insertT ts k v) :
    b.1 ∈ ts.map Prod.fst ∨ b.1 = k := by
  induction ts with
  | nil =>
    simp only [insertT, List.mem_singleton] at h
    right; rw [h]
  | cons kv ts ih =>
    obtain ⟨k1, v1⟩ := kv
    by_cases h1 : fenBeq k1 k
    · simp only [insertT, if_pos h1, List.mem_cons] at h
      rcases h with h | h
      · left; rw [h]; simp
      · left; simp only [List.map_cons, List.mem_cons]
        right
        exact List.mem_map_of_mem Prod.fst h
    · simp only [insertT, if_neg h1, List.mem_cons] at h
      rcases h with h | h
      · left; rw [h]; simp
      · rcases ih h with h2 | h2
        · left; simp only [List.map_cons, List.mem_cons]; right; exact h2
        · right; exact h2

theorem mem_entryOrInsertFreq {ts : List (FenT × TransitionT)} {k : FenT}
    {mv : AnyMoveT} {f : ℚ} {b : FenT × TransitionT}
    (h : b ∈ entryOrInsertFreq ts k mv f) :
    b.1 ∈ ts.map Prod.fst ∨ b.1 = k := by
  induction ts with
  | nil =>
    simp only [entryOrInsertFreq, List.mem_singleton] at h
    right; rw [h]
  | cons kv ts ih =>
    obtain ⟨k1, v1⟩ := kv
    by_cases h1 : fenBeq k1 k
    · simp only [entryOrInsertFreq, if_pos h1, List.mem_cons] at h
      rcases h with h | h
      · left; rw [h]; simp
      · left; simp only [List.map_cons, List.mem_cons]
        right
        exact List.mem_map_of_mem Prod.fst h
    · simp only [entryOrInsertFreq, if_neg h1, List.mem_cons] at h
      rcases h with h | h
      · left; rw [h]; simp
      · rcases ih h with h2 | h2
        · left; simp only [List.map_cons, List.mem_cons]; right; exact h2
        · right; exact h2

/-- Pairwise Fen-distinctness of the destination keys of an edge list: the
at-most-one-edge-per-destination invariant. -/
def KeysDistinct (ts : List (FenT × TransitionT)) : Prop :=
  ts.Pairwise (fun a b => fenBeq a.1 b.1 = false)

theorem keysDistinct_insertT {ts : List (FenT × TransitionT)} {k : FenT}
    {v : TransitionT} (hd : KeysDistinct ts)
    : KeysDistinct (insertT ts k v) := by
  induction ts with
  | nil => simp [insertT, KeysDistinct]
  | cons kv ts ih =>
    obtain ⟨k1, v1⟩ := kv
    rw [KeysDistinct, List.pairwise_cons] at hd
    by_cases h1 : fenBeq k1 k
    · simp only [insertT, if_pos h1]
      rw [KeysDistinct, List.pairwise_cons]
      exact ⟨fun b hb => hd.1 b hb, hd.2⟩
    · simp only [insertT, if_neg h1]
      rw [KeysDistinct, List.pairwise_cons]
      refine ⟨fun b hb => ?_, ih hd.2⟩
      rcases mem_insertT hb with h2 | h2
      · obtain ⟨c, hc, hc2⟩ := List.mem_map.mp h2
        have := hd.1 c hc
        rw [hc2] at this
        exact this
      · rw [h2]
        simpa using h1

theorem keysDistinct_entryOrInsertFreq {ts : List (FenT × TransitionT)}
    {k : FenT} {mv : AnyMoveT} {f : ℚ} (hd : KeysDistinct ts) :
    KeysDistinct (entryOrInsertFreq ts k mv f) := by
  induction ts with
  | nil => simp [entryOrInsertFreq, KeysDistinct]
  | cons kv ts ih =>
    obtain ⟨k1, v1⟩ := kv
    rw [KeysDistinct, List.pairwise_cons] at hd
    by_cases h1 : fenBeq k1 k
    · simp only [entryOrInsertFreq, if_pos h1]
      rw [KeysDistinct, List.pairwise_cons]
      exact ⟨fun b hb => hd.1 b hb, hd.2⟩
    · simp only [entryOrInsertFreq, if_neg h1]
      rw [KeysDistinct, List.pairwise_cons]
      refine ⟨fun b hb => ?_, ih hd.2⟩
      rcases mem_entryOrInsertFreq hb with h2 | h2
      · obtain ⟨c, hc, hc2⟩ := List.mem_map.mp h2
        have := hd.1 c hc
        rw [hc2] at this
        exact this
      · rw [h2]
        simpa using h1

/-- C3: for every position and recorded structured move, zero structurally
matching candidate legal moves makes apply_move fail with IllegalMove
carrying the position description and the move; more than one match makes
it fail with AmbiguousMove with the same diagnostics; exactly one match
succeeds, returns the canonical key of the resulting position, and inserts
(overwriting) an edge to that key with weight 0. -/
theorem c3_apply_move_resolution {B : Type} (e : RulesEngine B)
    (p : PositionT B) (mv : MoveT) (ms : List BitMoveT)
    (hms : (e.generateMoves p.board).filter
      (fun bmv => moveMatchesBitmove mv bmv (e.pieceAtSq p.board)) = ms) :
    (ms = [] →
      applyMove e p mv =
        some (.error (.illegalMove p.fen.fenStr (.modelMove mv)))) ∧
    (2 ≤ ms.length →
      applyMove e p mv =
        some (.error (.ambiguousMove p.fen.fenStr (.modelMove mv)))) ∧
    (∀ bmv newFen, ms = [bmv] →
      fenNew (e.boardFen (e.applyBitMove p.board bmv)) = some newFen →
      applyMove e p mv = some (.ok (newFen,
        { p with transitions := insertT p.transitions newFen ⟨.modelMove mv, 0⟩ })) ∧
      findT (insertT p.transitions newFen ⟨.modelMove mv, 0⟩) newFen =
        some ⟨.modelMove mv, 0⟩) := by
  refine ⟨?_, ?_, ?_⟩
  · intro h
    rw [h] at hms
    unfold applyMove
    rw [hms]
  · intro h
    match ms, h with
    | b1 :: b2 :: rest, _ =>
      unfold applyMove
      rw [hms]
  · intro bmv newFen hlist hfen
    rw [hlist] at hms
    refine ⟨?_, findT_insertT_hit (fenBeq_refl newFen)⟩
    unfold applyMove
    rw [hms]
    simp only [hfen]

/-- A trivial concrete rules engine over a unit board type, used to witness
theorems about the graph operations. -/
def trivEngine : RulesEngine Unit where
  generateMoves := fun _ => []
  applyBitMove := fun _ _ => ()
  applyUciMove := fun _ _ => some ()
  boardFen := fun _ => ("x w - - 0 1").toList
  turn := fun _ => .white
  pieceAtSq := fun _ _ => .noPiece
  fromFen := fun _ => ()

/-- A concrete position node with no transitions at the starting key. -/
def trivPos : PositionT Unit := ⟨startingFen, (), 0, [], []⟩

theorem c3_apply_move_resolution_witness :
    applyMove trivEngine trivPos .castleKingside =
      some (.error (.illegalMove trivPos.fen.fenStr (.modelMove .castleKingside))) :=
  (c3_apply_move_resolution trivEngine trivPos .castleKingside [] rfl).1 rfl

/-- The canonical key the trivial engine's board description produces. -/
def cexFen : FenT := ⟨("x w - - 0 1").toList, ("x w - -").toList⟩

/-- A concrete position that already has a placeholder edge (structured
repertoire move, weight 0) to the destination the engine will report. -/
def cexPos : PositionT Unit :=
  ⟨cexFen, (), 0, [(cexFen, ⟨.modelMove .castleKingside, 0⟩)], []⟩

/-- C5 counterexample: apply_uci on a destination that already has an edge
does NOT replace the stored move descriptor with the book move-code; it
only overwrites the weight.  The edge after the call still carries the
original structured move, which differs from the claimed book move-code. -/
theorem c5_counterexample :
    applyUci trivEngine cexPos (("e2e4").toList) (3 / 10) =
      some (.ok (cexFen,
        { cexPos with
            transitions := [(cexFen, ⟨.modelMove .castleKingside, 3 / 10⟩)] })) ∧
    AnyMoveT.modelMove .castleKingside ≠ AnyMoveT.uci (("e2e4").toList) :=
  ⟨rfl, by decide⟩

/-- C5 amended: at most one edge exists per (source, destination) pair, and
apply_move re-insertion overwrites both the descriptor and the weight;
apply_uci on an existing destination overwrites only the weight with the
empirical probability and keeps the existing descriptor, while on a new
destination it stores the book move-code with that probability. -/
theorem c5_edge_insertion_amended {B : Type} (e : RulesEngine B)
    (p : PositionT B) :
    (∀ (mv : MoveT) (newFen : FenT) (p1 : PositionT B),
      applyMove e p mv = some (.ok (newFen, p1)) →
      KeysDistinct p.transitions →
      KeysDistinct p1.transitions ∧
      findT p1.transitions newFen = some ⟨.modelMove mv, 0⟩) ∧
    (∀ (uci : List Char) (f : ℚ) (newFen : FenT) (p1 : PositionT B),
      applyUci e p uci f = some (.ok (newFen, p1)) →
      KeysDistinct p.transitions →
      KeysDistinct p1.transitions ∧
      (∀ t0, findT p.transitions newFen = some t0 →
        findT p1.transitions newFen = some ⟨t0.mv, f⟩) ∧
      (findT p.transitions newFen = none →
        findT p1.transitions newFen = some ⟨.uci uci, f⟩)) := by
  constructor
  · intro mv newFen p1 happ hd
    unfold applyMove at happ
    split at happ
    · simp at happ
    · split at happ
      · simp at happ
      · simp only [Option.some.injEq, Except.ok.injEq, Prod.mk.injEq] at happ
        obtain ⟨h1, h2⟩ := happ
        subst h1
        subst h2
        exact ⟨keysDistinct_insertT hd, findT_insertT_hit (fenBeq_refl _)⟩
    · simp at happ
  · intro uci f newFen p1 happ hd
    unfold applyUci at happ
    split at happ
    · simp at happ
    · split at happ
      · simp at happ
      · simp only [Option.some.injEq, Except.ok.injEq, Prod.mk.injEq] at happ
        obtain ⟨h1, h2⟩ := happ
        subst h1
        subst h2
        refine ⟨keysDistinct_entryOrInsertFreq hd, ?_, ?_⟩
        · intro t0 hfind
          exact findT_entryOrInsertFreq_hit (fenBeq_refl _) hfind
        · intro hfind
          exact findT_entryOrInsertFreq_miss (fenBeq_refl _) hfind

theorem c5_edge_insertion_amended_witness :
    KeysDistinct [(cexFen, (⟨.modelMove .castleKingside, 3 / 10⟩ : TransitionT))] ∧
    (∀ t0, findT cexPos.transitions cexFen = some t0 →
      findT [(cexFen, (⟨.modelMove .castleKingside, 3 / 10⟩ : TransitionT))] cexFen =
        some ⟨t0.mv, 3 / 10⟩) ∧
    (findT cexPos.transitions cexFen = none →
      findT [(cexFen, (⟨.modelMove .castleKingside, 3 / 10⟩ : TransitionT))] cexFen =
        some ⟨.uci (("e2e4").toList), 3 / 10⟩) :=
  (c5_edge_insertion_amended trivEngine cexPos).2 (("e2e4").toList) (3 / 10)
    cexFen
    { cexPos with
        transitions := [(cexFen, ⟨.modelMove .castleKingside, 3 / 10⟩)] }
    rfl (by simp [KeysDistinct, cexPos])

/-- C2: two full position descriptions that differ only in the last two
whitespace-separated fields produce equal (and, for any hasher, hash-equal)
canonical keys; two full descriptions whose parts before those fields
differ produce unequal canonical keys. -/
theorem c2_canonical_key_equality :
    (∀ (p a1 b1 a2 b2 : List Char) (f1 f2 : FenT),
      ' ' ∉ a1 → ' ' ∉ b1 → ' ' ∉ a2 → ' ' ∉ b2 →
      fenNew (p ++ ' ' :: a1 ++ ' ' :: b1) = some f1 →
      fenNew (p ++ ' ' :: a2 ++ ' ' :: b2) = some f2 →
      fenBeq f1 f2 = true ∧ ∀ h : List Char → Nat, fenHash h f1 = fenHash h f2) ∧
    (∀ (p1 a1 b1 p2 a2 b2 : List Char) (f1 f2 : FenT),
      ' ' ∉ a1 → ' ' ∉ b1 → ' ' ∉ a2 → ' ' ∉ b2 → p1 ≠ p2 →
      fenNew (p1 ++ ' ' :: a1 ++ ' ' :: b1) = some f1 →
      fenNew (p2 ++ ' ' :: a2 ++ ' ' :: b2) = some f2 →
      fenBeq f1 f2 = false) := by
  constructor
  · intro p a1 b1 a2 b2 f1 f2 ha1 hb1 ha2 hb2 h1 h2
    rw [fenNew_split ha1 hb1] at h1
    rw [fenNew_split ha2 hb2] at h2
    injection h1 with h1
    injection h2 with h2
    subst h1
    subst h2
    exact ⟨by simp [fenBeq], fun h => rfl⟩
  · intro p1 a1 b1 p2 a2 b2 f1 f2 ha1 hb1 ha2 hb2 hp h1 h2
    rw [fenNew_split ha1 hb1] at h1
    rw [fenNew_split ha2 hb2] at h2
    injection h1 with h1
    injection h2 with h2
    subst h1
    subst h2
    simpa [fenBeq] using hp

theorem c2_canonical_key_equality_witness :
    fenBeq ⟨("b w - - 0 1").toList, ("b w - -").toList⟩
        ⟨("b w - - 31 7").toList, ("b w - -").toList⟩ = true :=
  ((c2_canonical_key_equality.1 (("b w - -").toList) (("0").toList)
    (("1").toList) (("31").toList) (("7").toList) _ _
    (by decide) (by decide) (by decide) (by decide) rfl rfl)).1

/-- C9: canonicalization is deterministic and total on full position
descriptions: Fen::new succeeds on every string with at least two spaces,
and on a description whose last two fields are space-free it returns the
input paired with the input minus those trailing two fields. -/
theorem c9_canonicalization_total :
    (∀ s : List Char, 2 ≤ s.count ' ' → (fenNew s).isSome) ∧
    (∀ p a b : List Char, ' ' ∉ a → ' ' ∉ b →
      fenNew (p ++ ' ' :: a ++ ' ' :: b) = some ⟨p ++ ' ' :: a ++ ' ' :: b, p⟩) :=
  ⟨fun _ h => fenNew_isSome_of_two_spaces h, fun _ _ _ ha hb => fenNew_split ha hb⟩

theorem c9_canonicalization_total_witness :
    (fenNew startingFenStr).isSome :=
  c9_canonicalization_total.1 startingFenStr (by decide)

theorem findB_deser_ser (m : List (FenT × List BookMoveT)) (k : FenT) :
    findB (deserCache (serCache m)) k = findB m k := by
  induction m with
  | nil => rfl
  | cons kv m ih =>
    obtain ⟨k1, v1⟩ := kv
    simp only [serCache, deserCache, List.map_cons, findB]
    have : fenBeq ⟨k1.shortenedFenStr, k1.shortenedFenStr⟩ k = fenBeq k1 k := by
      simp [fenBeq]
    rw [this]
    by_cases h : fenBeq k1 k
    · simp [h]
    · simp only [h, Bool.false_eq_true, if_false]
      simpa [serCache, deserCache] using ih

theorem findB_append_none {m : List (FenT × List BookMoveT)} {k q : FenT}
    {v : List BookMoveT} (h : findB (m ++ [(k, v)]) q = none) :
    findB m q = none ∧ fenBeq k q = false := by
  induction m with
  | nil =>
    simp only [List.nil_append, findB] at h
    constructor
    · rfl
    · by_cases h1 : fenBeq k q
      · rw [if_pos h1] at h; simp at h
      · simpa using h1
  | cons kv m ih =>
    obtain ⟨k1, v1⟩ := kv
    simp only [List.cons_append, findB] at h ⊢
    by_cases h1 : fenBeq k1 q
    · rw [if_pos h1] at h; simp at h
    · simp only [h1, Bool.false_eq_true, if_false] at h ⊢
      exact ih h

theorem cacheMoves_hit {f : FenT → List BookMoveT} {c : CacheState}
    {k : FenT} {v : List BookMoveT} (h : findB c.cache k = some v) :
    cacheMoves f c k = (v, c, []) := by
  unfold cacheMoves
  rw [h]

theorem cacheMoves_miss {f : FenT → List BookMoveT} {c : CacheState}
    {k : FenT} (h : findB c.cache k = none) :
    cacheMoves f c k = (f k, ⟨c.cache ++ [(k, f k)], true⟩, [k]) := by
  unfold cacheMoves
  rw [h]

theorem findB_append_self {m : List (FenT × List BookMoveT)} {k : FenT}
    (v : List BookMoveT) (h : findB m k = none) :
    findB (m ++ [(k, v)]) k = some v := by
  induction m with
  | nil => simp [findB, fenBeq_refl]
  | cons kv m ih =>
    obtain ⟨k1, v1⟩ := kv
    simp only [findB] at h
    by_cases h1 : fenBeq k1 k
    · rw [if_pos h1] at h; simp at h
    · simp only [Bool.false_eq_true, if_false, h1] at h
      simp only [List.cons_append, findB, h1, Bool.false_eq_true, if_false]
      exact ih h

theorem runQueries_calls_fresh (f : FenT → List BookMoveT) :
    ∀ (ks : List FenT) (c : CacheState) (k : FenT),
      k ∈ (runQueries f c ks).2.2 → findB c.cache k = none := by
  intro ks
  induction ks with
  | nil => intro c k h; simp [runQueries] at h
  | cons k0 ks ih =>
    intro c k h
    simp only [runQueries] at h
    cases hfind : findB c.cache k0 with
    | some v =>
      rw [cacheMoves_hit hfind] at h
      simp only [List.nil_append] at h
      exact ih c k h
    | none =>
      rw [cacheMoves_miss hfind] at h
      simp only [List.cons_append, List.nil_append, List.mem_cons] at h
      rcases h with h | h
      · rw [← h] at hfind; exact hfind
      · have := ih _ k h
        exact (findB_append_none this).1

theorem runQueries_calls_pairwise (f : FenT → List BookMoveT) :
    ∀ (ks : List FenT) (c : CacheState),
      (runQueries f c ks).2.2.Pairwise (fun a b => fenBeq a b = false) := by
  intro ks
  induction ks with
  | nil => intro c; simp [runQueries]
  | cons k0 ks ih =>
    intro c
    simp only [runQueries]
    cases hfind : findB c.cache k0 with
    | some v =>
      rw [cacheMoves_hit hfind]
      simpa using ih c
    | none =>
      rw [cacheMoves_miss hfind]
      simp only [List.cons_append, List.nil_append, List.pairwise_cons]
      refine ⟨fun j hj => ?_, ih _⟩
      have := runQueries_calls_fresh f ks _ j hj
      exact (findB_append_none this).2

/-- C7: over any sequence of moves() queries against the memoizing cache,
the underlying provider is invoked at most once per distinct canonical key
(the invocation log is pairwise Fen-distinct and contains only keys absent
from the initial memo map); a query for a cached key returns the stored
list with no invocation, and a query for a new key invokes the provider
exactly once, returns its answer, and stores it. -/
theorem c7_cache_single_invocation (f : FenT → List BookMoveT)
    (c : CacheState) (ks : List FenT) :
    ((runQueries f c ks).2.2.Pairwise (fun a b => fenBeq a b = false)) ∧
    (∀ k ∈ (runQueries f c ks).2.2, findB c.cache k = none) ∧
    (∀ k v, findB c.cache k = some v → cacheMoves f c k = (v, c, [])) ∧
    (∀ k, findB c.cache k = none →
      cacheMoves f c k = (f k, ⟨c.cache ++ [(k, f k)], true⟩, [k]) ∧
      findB (cacheMoves f c k).2.1.cache k = some (f k)) := by
  refine ⟨runQueries_calls_pairwise f ks c,
    fun k hk => runQueries_calls_fresh f ks c k hk,
    fun k v h => cacheMoves_hit h, fun k h => ⟨cacheMoves_miss h, ?_⟩⟩
  rw [cacheMoves_miss h]
  exact findB_append_self (f k) h

theorem c7_cache_single_invocation_witness :
    cacheMoves (fun _ => []) ⟨[], false⟩ startingFen =
      ([], ⟨[(startingFen, [])], true⟩, [startingFen]) :=
  ((c7_cache_single_invocation (fun _ => []) ⟨[], false⟩ []).2.2.2
    startingFen rfl).1

/-- C8: saving the cache and then loading the saved bytes, with no
intervening mutation, leaves the dirty flag false, and every moves() query
against the reloaded cache returns the same move list as against the
original cache. -/
theorem c8_cache_roundtrip (c : CacheState) (f : FenT → List BookMoveT)
    (k : FenT) :
    (loadCache (saveCache c).2 (saveCache c).1).hasChanged = false ∧
    (cacheMoves f (loadCache (saveCache c).2 (saveCache c).1) k).1 =
      (cacheMoves f c k).1 := by
  refine ⟨rfl, ?_⟩
  show (cacheMoves f ⟨deserCache (serCache c.cache), false⟩ k).1 = _
  unfold cacheMoves
  simp only [findB_deser_ser]
  cases h : findB c.cache k with
  | some v => rfl
  | none => rfl

/-- C4: after set_own_move_frequencies, every node whose side to move is
the owner and which has outgoing edges carries edges whose probabilities
all equal 1 / edge count, with destinations, move descriptors, accumulated
frequency and key untouched; every other node is unchanged. -/
theorem c4_own_move_normalization {B : Type} (e : RulesEngine B)
    (me : PlayerT) (t : TreeT B) (k : FenT) (p : PositionT B)
    (hmem : (k, p) ∈ t) :
    (e.turn p.board = me ∧ 0 < p.transitions.length →
      (k, { p with transitions := p.transitions.map (fun kt =>
          (kt.1, ⟨kt.2.mv, 1 / (p.transitions.length : ℚ)⟩)) }) ∈
        setOwnMoveFrequencies e me t ∧
      ∀ kt ∈ (p.transitions.map (fun kt =>
          (kt.1, (⟨kt.2.mv, 1 / (p.transitions.length : ℚ)⟩ : TransitionT)))),
        kt.2.frequency = 1 / (p.transitions.length : ℚ)) ∧
    (¬(e.turn p.board = me ∧ 0 < p.transitions.length) →
      (k, p) ∈ setOwnMoveFrequencies e me t) := by
  constructor
  · intro hcond
    constructor
    · have := List.mem_map_of_mem (fun kp : FenT × PositionT B =>
        let q := kp.2
        if e.turn q.board = me ∧ 0 < q.transitions.length then
          (kp.1, { q with transitions :=
            q.transitions.map (fun kt =>
              (kt.1, ⟨kt.2.mv, 1 / (q.transitions.length : ℚ)⟩)) })
        else kp) hmem
      rw [setOwnMoveFrequencies]
      simpa [hcond] using this
    · intro kt hkt
      obtain ⟨c, _, hc2⟩ := List.mem_map.mp hkt
      rw [← hc2]
  · intro hcond
    have := List.mem_map_of_mem (fun kp : FenT × PositionT B =>
      let q := kp.2
      if e.turn q.board = me ∧ 0 < q.transitions.length then
        (kp.1, { q with transitions :=
          q.transitions.map (fun kt =>
            (kt.1, ⟨kt.2.mv, 1 / (q.transitions.length : ℚ)⟩)) })
      else kp) hmem
    rw [setOwnMoveFrequencies]
    simpa [hcond] using this

/-- A concrete one-node tree: the owner is to move at the starting position
and has two prepared replies. -/
def c4Pos : PositionT Unit :=
  ⟨startingFen, (), 0,
    [(cexFen, ⟨.modelMove .castleKingside, 0⟩),
     (⟨("y w - - 0 1").toList, ("y w - -").toList⟩, ⟨.modelMove .castleQueenside, 0⟩)], []⟩

theorem c4_own_move_normalization_witness :
    (startingFen, { c4Pos with transitions := c4Pos.transitions.map (fun kt =>
        (kt.1, ⟨kt.2.mv, 1 / (c4Pos.transitions.length : ℚ)⟩)) }) ∈
      setOwnMoveFrequencies trivEngine .white [(startingFen, c4Pos)] ∧
    ∀ kt ∈ (c4Pos.transitions.map (fun kt =>
        (kt.1, (⟨kt.2.mv, 1 / (c4Pos.transitions.length : ℚ)⟩ : TransitionT)))),
      kt.2.frequency = 1 / (c4Pos.transitions.length : ℚ) :=
  (c4_own_move_normalization trivEngine .white [(startingFen, c4Pos)]
    startingFen c4Pos (by simp)).1 ⟨rfl, by simp [c4Pos]⟩

/-- Generalized no-rollback property of the game-replay loop: if replaying
the remaining moves from a cursor fails, the final tree is exactly the tree
produced by successfully replaying the longest processable prefix, and the
failing move itself leaves the tree unchanged (it errs on the same tree). -/
theorem addGameAux_no_rollback {B : Type} (e : RulesEngine B) :
    ∀ (ms : List MoveT) (t : TreeT B) (fen : FenT) (seq : List AnyMoveT)
      (err : ErrorT) (tf : TreeT B),
      addGameAux e t fen seq ms = some (.error err, tf) →
      ∃ i < ms.length,
        addGameAux e t fen seq (ms.take i) = some (.ok (), tf) ∧
        addGameAux e t fen seq (ms.take (i + 1)) = some (.error err, tf) := by
  intro ms
  induction ms with
  | nil => intro t fen seq err tf h; simp [addGameAux] at h
  | cons mv rest ih =>
    intro t fen seq err tf h
    rw [addGameAux] at h
    split at h
    · simp at h
    next p hfind =>
      split at h
      · simp at h
      next e0 happ =>
        simp only [Option.some.injEq, Prod.mk.injEq, Except.error.injEq] at h
        obtain ⟨h1, h2⟩ := h
        subst h1
        subst h2
        refine ⟨0, by simp, ?_, ?_⟩
        · simp [addGameAux]
        · simp only [List.take_succ_cons, List.take_zero]
          simp only [addGameAux, hfind, happ]
      next newFen p1 happ =>
        obtain ⟨i, hi, hok, herr⟩ := ih _ _ _ _ _ h
        refine ⟨i + 1, by simpa using Nat.succ_lt_succ hi, ?_, ?_⟩
        · simp only [List.take_succ_cons]
          simp only [addGameAux, hfind, happ]
          exact hok
        · simp only [List.take_succ_cons]
          simp only [addGameAux, hfind, happ]
          exact herr

/-- C10: if add_game_to_repertoire fails partway through a game, nothing is
rolled back: the resulting tree is exactly the tree obtained by
successfully adding the longest processable prefix of the game (so every
node and edge created for the earlier moves remains), and the failing move
itself errs without changing the tree. -/
theorem c10_no_rollback {B : Type} (e : RulesEngine B) (t : TreeT B)
    (ms : List MoveT) (err : ErrorT) (tf : TreeT B)
    (h : addGame e t ms = some (.error err, tf)) :
    ∃ i < ms.length,
      addGame e t (ms.take i) = some (.ok (), tf) ∧
      addGame e t (ms.take (i + 1)) = some (.error err, tf) := by
  obtain ⟨i, hi, hok, herr⟩ := addGameAux_no_rollback e ms _ _ _ _ _ h
  exact ⟨i, hi, hok, herr⟩

theorem c10_no_rollback_witness :
    ∃ i < ([MoveT.castleKingside] : List MoveT).length,
      addGame trivEngine ([] : TreeT Unit) ([MoveT.castleKingside].take i) =
        some (.ok (), [(startingFen, newPosition trivEngine startingFen)]) ∧
      addGame trivEngine ([] : TreeT Unit) ([MoveT.castleKingside].take (i + 1)) =
        some (.error (.illegalMove startingFen.fenStr (.modelMove .castleKingside)),
          [(startingFen, newPosition trivEngine startingFen)]) :=
  c10_no_rollback trivEngine [] [.castleKingside] _ _ rfl

theorem findPos_congr {B : Type} {t : TreeT B} {q1 q2 : FenT}
    (h : fenBeq q1 q2 = true) : findPos t q1 = findPos t q2 := by
  induction t with
  | nil => rfl
  | cons kp t ih =>
    obtain ⟨k, p⟩ := kp
    by_cases h1 : fenBeq k q1
    · simp [findPos, h1, fenBeq_trans h1 h]
    · have h2 : fenBeq k q2 = false := by
        cases h3 : fenBeq k q2
        · rfl
        · exact absurd (fenBeq_trans h3 (fenBeq_symm h)) (by simp [h1])
      simp only [findPos, h2, Bool.false_eq_true, if_false,
        (by simpa using h1 : fenBeq k q1 = false)]
      exact ih

theorem findPos_setPos_same {B : Type} {t : TreeT B} {k q : FenT}
    {p : PositionT B} (h : fenBeq k q = true) :
    findPos (setPos t k p) q = some p := by
  induction t with
  | nil => simp [setPos, findPos, h]
  | cons kp t ih =>
    obtain ⟨k1, p1⟩ := kp
    by_cases h1 : fenBeq k1 k
    · simp [setPos, if_pos h1, findPos, fenBeq_trans h1 h]
    · have h2 : fenBeq k1 q = false := by
        cases h3 : fenBeq k1 q
        · rfl
        · exact absurd (fenBeq_trans h3 (fenBeq_symm h)) (by simp [h1])
      simp only [setPos, if_neg h1, findPos, h2, Bool.false_eq_true, if_false]
      exact ih

theorem findPos_setPos_other {B : Type} {t : TreeT B} {k q : FenT}
    {p : PositionT B} (h : fenBeq k q = false) :
    findPos (setPos t k p) q = findPos t q := by
  induction t with
  | nil => simp [setPos, findPos, h]
  | cons kp t ih =>
    obtain ⟨k1, p1⟩ := kp
    by_cases h1 : fenBeq k1 k
    · have h2 : fenBeq k1 q = false := by
        cases h3 : fenBeq k1 q
        · rfl
        · exact absurd (fenBeq_trans (fenBeq_symm h1) h3) (by simp [h])
      simp [setPos, if_pos h1, findPos, h2]
    · simp only [setPos, if_neg h1, findPos]
      by_cases h3 : fenBeq k1 q
      · simp [h3]
      · simp [h3, ih]

theorem findPos_append_single {B : Type} {t : TreeT B} {k q : FenT}
    {p : PositionT B} :
    findPos (t ++ [(k, p)]) q =
      match findPos t q with
      | some p1 => some p1
      | none => if fenBeq k q then some p else none := by
  induction t with
  | nil => simp [findPos]
  | cons kp t ih =>
    obtain ⟨k1, p1⟩ := kp
    by_cases h1 : fenBeq k1 q
    · simp [findPos, h1]
    · simp only [List.cons_append, findPos, h1, Bool.false_eq_true, if_false]
      exact ih

theorem lookupW_isSome_of_mem {l : List (FenT × ℚ)} {kw : FenT × ℚ}
    (h : kw ∈ l) : (lookupW l kw.1).isSome := by
  induction l with
  | nil => simp at h
  | cons x l ih =>
    obtain ⟨k1, w1⟩ := x
    rcases List.mem_cons.mp h with h1 | h1
    · rw [← h1]
      simp [lookupW, fenBeq_refl]
    · unfold lookupW
      by_cases h2 : fenBeq k1 kw.1
      · simp [h2]
      · simp only [h2, Bool.false_eq_true, if_false]
        exact ih h1

theorem lookupW_some_mem {l : List (FenT × ℚ)} {k : FenT} {w : ℚ}
    (h : lookupW l k = some w) :
    ∃ kw ∈ l, fenBeq kw.1 k = true ∧ kw.2 = w := by
  induction l with
  | nil => simp [lookupW] at h
  | cons x l ih =>
    obtain ⟨k1, w1⟩ := x
    unfold lookupW at h
    by_cases h1 : fenBeq k1 k
    · rw [if_pos h1] at h
      injection h with h
      exact ⟨(k1, w1), List.mem_cons_self _ _, h1, h⟩
    · rw [if_neg h1] at h
      obtain ⟨kw, hmem, hbeq, hval⟩ := ih h
      exact ⟨kw, List.mem_cons_of_mem _ hmem, hbeq, hval⟩

theorem lookupW_of_mem_nodup {l : List (FenT × ℚ)} {kw : FenT × ℚ}
    (hd : l.Pairwise (fun a b => fenBeq a.1 b.1 = false)) (h : kw ∈ l) :
    lookupW l kw.1 = some kw.2 := by
  induction l with
  | nil => simp at h
  | cons x l ih =>
    obtain ⟨k1, w1⟩ := x
    rw [List.pairwise_cons] at hd
    rcases List.mem_cons.mp h with h1 | h1
    · rw [← h1]
      simp [lookupW, fenBeq_refl]
    · have h2 : fenBeq k1 kw.1 = false := hd.1 kw h1
      simp only [lookupW, h2, Bool.false_eq_true, if_false]
      exact ih hd.2 h1

/-- g respects Fen equality of its argument (graphOf always does). -/
def GCong (g : FenT → List (FenT × ℚ)) : Prop :=
  ∀ a b : FenT, fenBeq a b = true → g a = g b

theorem graphOf_gcong {B : Type} (t : TreeT B) : GCong (graphOf t) := by
  intro a b h
  unfold graphOf
  rw [findPos_congr h]

theorem pathOkB_congr {g : FenT → List (FenT × ℚ)} (hg : GCong g)
    {a b : FenT} (h : fenBeq a b = true) (rest : List FenT) :
    pathOkB g a rest = pathOkB g b rest := by
  cases rest with
  | nil => rfl
  | cons k rest => simp only [pathOkB, hg a b h]

theorem pathProd_congr {g : FenT → List (FenT × ℚ)} (hg : GCong g)
    {a b : FenT} (h : fenBeq a b = true) (rest : List FenT) :
    pathProd g a rest = pathProd g b rest := by
  cases rest with
  | nil => rfl
  | cons k rest => simp only [pathProd, hg a b h]

theorem sum_map_mul_left_rat {α : Type} (l : List α) (f : α → ℚ) (r : ℚ) :
    (l.map (fun x => r * f x)).sum = r * (l.map f).sum := by
  induction l with
  | nil => simp
  | cons x l ih => simp [ih, mul_add]

theorem sum_map_flatMap_rat {α β : Type} (l : List α) (f : α → List β)
    (m : β → ℚ) :
    ((l.flatMap f).map m).sum = (l.map (fun x => ((f x).map m).sum)).sum := by
  induction l with
  | nil => simp
  | cons x l ih => simp [ih]

theorem vanish_mono {g : FenT → List (FenT × ℚ)} {c : ℚ} {u : FenT}
    {n m : Nat} (h : Vanish g c u n) (hnm : n ≤ m) : Vanish g c u m :=
  fun rest hok hlen => h rest hok (le_trans hnm hlen)

theorem vanish_zero {g : FenT → List (FenT × ℚ)} {u : FenT} {n : Nat} :
    Vanish g 0 u n :=
  fun _ _ _ => by ring

theorem vanish_step {g : FenT → List (FenT × ℚ)} {c : ℚ} {u : FenT} {n : Nat}
    (hd : GNodup g) (h : Vanish g c u (n + 1)) :
    ∀ kw ∈ g u, Vanish g (c * kw.2) kw.1 n := by
  intro kw hkw rest hok hlen
  have hok2 : pathOkB g u (kw.1 :: rest) = true := by
    simp only [pathOkB, Bool.and_eq_true]
    exact ⟨by simpa using lookupW_isSome_of_mem hkw, hok⟩
  have := h (kw.1 :: rest) hok2 (by simpa using Nat.succ_le_succ hlen)
  rw [pathProd, lookupW_of_mem_nodup (hd u) hkw] at this
  simpa [mul_assoc] using this

theorem vanish_back {g : FenT → List (FenT × ℚ)} {c : ℚ} {u : FenT} {n : Nat}
    (hg : GCong g)
    (h : ∀ kw ∈ g u, Vanish g (c * kw.2) kw.1 n) :
    Vanish g c u (n + 1) := by
  intro rest hok hlen
  cases rest with
  | nil => simp at hlen
  | cons k rest =>
    simp only [pathOkB, Bool.and_eq_true] at hok
    obtain ⟨hlook, hok2⟩ := hok
    obtain ⟨w, hw⟩ := Option.isSome_iff_exists.mp hlook
    obtain ⟨kw, hmem, hbeq, hval⟩ := lookupW_some_mem hw
    have hVan := h kw hmem
    have hok3 : pathOkB g kw.1 rest = true := by
      rw [pathOkB_congr hg hbeq]
      exact hok2
    have := hVan rest hok3 (by simpa using Nat.le_of_succ_le_succ hlen)
    rw [pathProd_congr hg hbeq] at this
    rw [pathProd, hw]
    subst hval
    simp only [Option.getD_some]
    calc c * (kw.2 * pathProd g k rest)
        = c * kw.2 * pathProd g k rest := by ring
      _ = 0 := this

theorem pathMass_succ (g : FenT → List (FenT × ℚ)) (v : FenT) (n : Nat)
    (u : FenT) :
    pathMass g v (n + 1) u =
      (if fenBeq u v then 1 else 0)
        + ((g u).map (fun kw => kw.2 * pathMass g v n kw.1)).sum := rfl

theorem pathMass_zero (g : FenT → List (FenT × ℚ)) (v u : FenT) :
    pathMass g v 0 u = (if fenBeq u v then 1 else 0) := rfl

theorem pathMass_stab {g : FenT → List (FenT × ℚ)} (hd : GNodup g)
    {v : FenT} :
    ∀ (n : Nat) (u : FenT) (c : ℚ), Vanish g c u (n + 1) →
      c * pathMass g v (n + 1) u = c * pathMass g v n u := by
  intro n
  induction n with
  | zero =>
    intro u c h
    have hterm : ∀ kw ∈ g u, c * (kw.2 * pathMass g v 0 kw.1) = 0 := by
      intro kw hkw
      have hok : pathOkB g u [kw.1] = true := by
        simp only [pathOkB, Bool.and_eq_true]
        exact ⟨by simpa using lookupW_isSome_of_mem hkw, trivial⟩
      have hv := h [kw.1] hok (by simp)
      rw [pathProd, pathProd, lookupW_of_mem_nodup (hd u) hkw] at hv
      simp only [Option.getD_some, mul_one] at hv
      rw [pathMass_zero]
      by_cases hkv : fenBeq kw.1 v
      · simp only [hkv, if_pos]
        calc c * (kw.2 * 1) = c * kw.2 := by ring
          _ = 0 := hv
      · simp [hkv]
    have hsum : ((g u).map (fun kw => c * (kw.2 * pathMass g v 0 kw.1))).sum = 0 := by
      apply List.sum_eq_zero
      intro x hx
      obtain ⟨kw, hkw, hx2⟩ := List.mem_map.mp hx
      rw [← hx2]
      exact hterm kw hkw
    rw [pathMass_succ, pathMass_zero, mul_add, ← sum_map_mul_left_rat, hsum,
      add_zero]
  | succ n ih =>
    intro u c h
    have hpt : ∀ kw ∈ g u,
        c * (kw.2 * pathMass g v (n + 1) kw.1) =
          c * (kw.2 * pathMass g v n kw.1) := by
      intro kw hkw
      have h2 := ih kw.1 (c * kw.2) (vanish_step hd h kw hkw)
      calc c * (kw.2 * pathMass g v (n + 1) kw.1)
          = c * kw.2 * pathMass g v (n + 1) kw.1 := by ring
        _ = c * kw.2 * pathMass g v n kw.1 := h2
        _ = c * (kw.2 * pathMass g v n kw.1) := by ring
    rw [pathMass_succ g v (n + 1) u, pathMass_succ g v n u, mul_add, mul_add,
      ← sum_map_mul_left_rat, ← sum_map_mul_left_rat]
    have := congrArg List.sum (List.map_congr_left hpt)
    rw [this]

theorem ablMass_zero {B : Type} (e : RulesEngine B) (me : PlayerT)
    (g : FenT → List (FenT × ℚ)) (u : FenT) (c : ℚ) (ply : Nat) :
    ablMass e me g 0 u c ply =
      (if leafOwnerB e me g u then ((ply / 2 : Nat) : ℚ) * c else 0) := rfl

theorem ablMass_succ {B : Type} (e : RulesEngine B) (me : PlayerT)
    (g : FenT → List (FenT × ℚ)) (n : Nat) (u : FenT) (c : ℚ) (ply : Nat) :
    ablMass e me g (n + 1) u c ply =
      (if leafOwnerB e me g u then ((ply / 2 : Nat) : ℚ) * c else 0)
        + ((g u).map (fun kw => ablMass e me g n kw.1 (c * kw.2) (ply + 1))).sum := rfl

theorem vanish_mul_zero {g : FenT → List (FenT × ℚ)} {c : ℚ} {u : FenT}
    (hd : GNodup g) (h : Vanish g c u 1) :
    ∀ kw ∈ g u, c * kw.2 = 0 := by
  intro kw hkw
  have hok : pathOkB g u [kw.1] = true := by
    simp only [pathOkB, Bool.and_eq_true]
    exact ⟨by simpa using lookupW_isSome_of_mem hkw, trivial⟩
  have hv := h [kw.1] hok (by simp)
  rw [pathProd, pathProd, lookupW_of_mem_nodup (hd u) hkw] at hv
  simpa using hv

theorem ablMass_stab {B : Type} {e : RulesEngine B} {me : PlayerT}
    {g : FenT → List (FenT × ℚ)} (hd : GNodup g) :
    ∀ (n : Nat) (u : FenT) (c : ℚ) (ply : Nat), Vanish g c u (n + 1) →
      ablMass e me g (n + 1) u c ply = ablMass e me g n u c ply := by
  intro n
  induction n with
  | zero =>
    intro u c ply h
    rw [ablMass_succ, ablMass_zero]
    have hsum : ((g u).map (fun kw => ablMass e me g 0 kw.1 (c * kw.2) (ply + 1))).sum = 0 := by
      apply List.sum_eq_zero
      intro x hx
      obtain ⟨kw, hkw, hx2⟩ := List.mem_map.mp hx
      rw [← hx2, ablMass_zero, vanish_mul_zero hd h kw hkw]
      simp
    rw [hsum, add_zero]
  | succ n ih =>
    intro u c ply h
    rw [ablMass_succ e me g (n + 1), ablMass_succ e me g n]
    congr 1
    apply congrArg List.sum
    apply List.map_congr_left
    intro kw hkw
    exact ih kw.1 (c * kw.2) (ply + 1) (vanish_step hd h kw hkw)

theorem filter_flatMap_list {α β : Type} (l : List α) (f : α → List β)
    (P : β → Bool) :
    ((l.flatMap f).filter P) = l.flatMap (fun x => (f x).filter P) := by
  induction l with
  | nil => rfl
  | cons x l ih => simp [List.flatMap_cons, List.filter_append, ih]

theorem filter_map_comp {α β : Type} (l : List α) (f : α → β) (P : β → Bool) :
    ((l.map f).filter P) = (l.filter (fun x => P (f x))).map f := by
  induction l with
  | nil => rfl
  | cons x l ih =>
    by_cases h : P (f x) <;> simp [List.filter_cons, h, ih]

theorem allPathsLe_zero (g : FenT → List (FenT × ℚ)) (u : FenT) :
    allPathsLe g u 0 = [[]] := rfl

theorem allPathsLe_succ (g : FenT → List (FenT × ℚ)) (u : FenT) (n : Nat) :
    allPathsLe g u (n + 1) =
      [] :: (g u).flatMap
        (fun kw => (allPathsLe g kw.1 n).map (fun rest => kw.1 :: rest)) := rfl

theorem pathMass_eq_pathSumUpTo {g : FenT → List (FenT × ℚ)} (hd : GNodup g)
    (v : FenT) :
    ∀ (n : Nat) (u : FenT), pathMass g v n u = pathSumUpTo g u v n := by
  intro n
  induction n with
  | zero =>
    intro u
    rw [pathMass_zero, pathSumUpTo, allPathsLe_zero]
    by_cases h : fenBeq u v
    · simp [endKey, h, pathProd]
    · simp [endKey, h]
  | succ n ih =>
    intro u
    have hone : ∀ kw ∈ g u,
        ((((allPathsLe g kw.1 n).map (fun rest => kw.1 :: rest)).filter
          (fun rest => fenBeq (endKey u rest) v)).map (pathProd g u)).sum =
          kw.2 * pathMass g v n kw.1 := by
      intro kw hkw
      rw [filter_map_comp, List.map_map]
      show ((List.filter (fun x => fenBeq (endKey kw.1 x) v)
          (allPathsLe g kw.1 n)).map
            (pathProd g u ∘ fun rest => kw.1 :: rest)).sum =
        kw.2 * pathMass g v n kw.1
      have hcomp :
          (List.filter (fun x => fenBeq (endKey kw.1 x) v)
            (allPathsLe g kw.1 n)).map
              (pathProd g u ∘ fun rest => kw.1 :: rest) =
          (List.filter (fun x => fenBeq (endKey kw.1 x) v)
            (allPathsLe g kw.1 n)).map
              (fun rest => kw.2 * pathProd g kw.1 rest) := by
        apply List.map_congr_left
        intro rest _
        show pathProd g u (kw.1 :: rest) = kw.2 * pathProd g kw.1 rest
        rw [pathProd, lookupW_of_mem_nodup (hd u) hkw]
        simp
      rw [hcomp, sum_map_mul_left_rat, ih kw.1]
      rfl
    rw [pathMass_succ, pathSumUpTo, allPathsLe_succ, List.filter_cons]
    by_cases h : fenBeq u v
    · rw [show fenBeq (endKey u []) v = true from h, if_pos rfl]
      rw [List.map_cons, List.sum_cons, filter_flatMap_list,
        sum_map_flatMap_rat]
      rw [show pathProd g u [] = 1 from rfl]
      rw [if_pos h]
      congr 1
      apply congrArg List.sum
      apply List.map_congr_left
      intro kw hkw
      exact (hone kw hkw).symm
    · rw [show fenBeq (endKey u []) v = fenBeq u v from rfl,
        (by simpa using h : fenBeq u v = false)]
      simp only [Bool.false_eq_true, if_false]
      rw [filter_flatMap_list, sum_map_flatMap_rat]
      rw [zero_add]
      apply congrArg List.sum
      apply List.map_congr_left
      intro kw hkw
      exact (hone kw hkw).symm

theorem ablMass_eq_sum {B : Type} {e : RulesEngine B} {me : PlayerT}
    {g : FenT → List (FenT × ℚ)} (hd : GNodup g) :
    ∀ (n : Nat) (u : FenT) (c : ℚ) (ply : Nat),
      ablMass e me g n u c ply =
        (((allPathsLe g u n).filter
            (fun rest => leafOwnerB e me g (endKey u rest))).map
          (fun rest => (((ply + rest.length) / 2 : Nat) : ℚ)
            * (c * pathProd g u rest))).sum := by
  intro n
  induction n with
  | zero =>
    intro u c ply
    rw [ablMass_zero, allPathsLe_zero, List.filter_cons]
    by_cases h : leafOwnerB e me g u
    · simp [h, endKey, pathProd]
    · simp [h, endKey]
  | succ n ih =>
    intro u c ply
    have hone : ∀ kw ∈ g u,
        ((((allPathsLe g kw.1 n).map (fun rest => kw.1 :: rest)).filter
            (fun rest => leafOwnerB e me g (endKey u rest))).map
          (fun rest => (((ply + rest.length) / 2 : Nat) : ℚ)
            * (c * pathProd g u rest))).sum =
          ablMass e me g n kw.1 (c * kw.2) (ply + 1) := by
      intro kw hkw
      rw [filter_map_comp, List.map_map]
      show ((List.filter (fun x => leafOwnerB e me g (endKey kw.1 x))
          (allPathsLe g kw.1 n)).map
            ((fun rest => (((ply + rest.length) / 2 : Nat) : ℚ)
              * (c * pathProd g u rest)) ∘ fun rest => kw.1 :: rest)).sum =
        ablMass e me g n kw.1 (c * kw.2) (ply + 1)
      have hcomp :
          (List.filter (fun x => leafOwnerB e me g (endKey kw.1 x))
            (allPathsLe g kw.1 n)).map
              ((fun rest => (((ply + rest.length) / 2 : Nat) : ℚ)
                * (c * pathProd g u rest)) ∘ fun rest => kw.1 :: rest) =
          (List.filter (fun x => leafOwnerB e me g (endKey kw.1 x))
            (allPathsLe g kw.1 n)).map
              (fun rest => (((ply + 1 + rest.length) / 2 : Nat) : ℚ)
                * (c * kw.2 * pathProd g kw.1 rest)) := by
        apply List.map_congr_left
        intro rest _
        show (((ply + (kw.1 :: rest).length) / 2 : Nat) : ℚ)
            * (c * pathProd g u (kw.1 :: rest)) =
          (((ply + 1 + rest.length) / 2 : Nat) : ℚ)
            * (c * kw.2 * pathProd g kw.1 rest)
        rw [pathProd, lookupW_of_mem_nodup (hd u) hkw]
        simp only [Option.getD_some, List.length_cons]
        rw [show ply + (rest.length + 1) = ply + 1 + rest.length by omega]
        ring
      rw [hcomp, ih kw.1 (c * kw.2) (ply + 1)]
    rw [ablMass_succ, allPathsLe_succ, List.filter_cons]
    by_cases h : leafOwnerB e me g u
    · rw [show leafOwnerB e me g (endKey u []) = true from h, if_pos rfl]
      rw [List.map_cons, List.sum_cons, filter_flatMap_list,
        sum_map_flatMap_rat, if_pos h]
      congr 1
      · show ((ply / 2 : Nat) : ℚ) * c =
          (((ply + List.length []) / 2 : Nat) : ℚ) * (c * pathProd g u [])
        show ((ply / 2 : Nat) : ℚ) * c =
          (((ply + 0) / 2 : Nat) : ℚ) * (c * 1)
        ring_nf
      · apply congrArg List.sum
        apply List.map_congr_left
        intro kw hkw
        exact (hone kw hkw).symm
    · rw [show leafOwnerB e me g (endKey u []) = leafOwnerB e me g u from rfl,
        (by simpa using h : leafOwnerB e me g u = false)]
      simp only [Bool.false_eq_true, if_false]
      rw [filter_flatMap_list, sum_map_flatMap_rat, zero_add]
      apply congrArg List.sum
      apply List.map_congr_left
      intro kw hkw
      exact (hone kw hkw).symm

theorem processItem_spec {B : Type} (e : RulesEngine B) (me : PlayerT)
    (t : TreeT B) (i : FrequencyDelta) (hwf : WfTurn e t) (hcoh : TurnCoh e) :
    (∀ q, graphOf (processItem e me t i).1 q = graphOf t q) ∧
    (∀ q, freqOf (processItem e me t i).1 q =
      freqOf t q + (if fenBeq i.fen q then i.fdelta else 0)) ∧
    WfTurn e (processItem e me t i).1 ∧
    ((processItem e me t i).2.1 =
      if leafOwnerB e me (graphOf t) i.fen then
        ((i.ply / 2 : Nat) : ℚ) * i.fdelta else 0) ∧
    (∀ F : FenT → ℚ → Nat → ℚ,
      ((processItem e me t i).2.2.map (fun j => F j.fen j.fdelta j.ply)).sum =
        ((graphOf t i.fen).map
          (fun kw => F kw.1 (i.fdelta * kw.2) (i.ply + 1))).sum) ∧
    (∀ kw ∈ graphOf t i.fen, ∃ j ∈ (processItem e me t i).2.2,
      j.fen = kw.1 ∧ j.fdelta = i.fdelta * kw.2) := by
  cases hfind : findPos t i.fen with
  | some p0 =>
    have hPI : processItem e me t i =
        (setPos t i.fen
          ⟨p0.fen, p0.board, p0.frequency + i.fdelta, p0.transitions, i.sequence⟩,
         (if e.turn p0.board = me ∧ p0.transitions.length = 0 then
            ((i.ply / 2 : Nat) : ℚ) * i.fdelta else 0),
         p0.transitions.map (fun kt =>
           ⟨kt.1, i.fdelta * kt.2.frequency, i.ply + 1,
             i.sequence ++ [kt.2.mv]⟩)) := by
      unfold processItem getOrCreate
      rw [hfind]
    have hgq : graphOf t i.fen =
        p0.transitions.map (fun kt => (kt.1, kt.2.frequency)) := by
      unfold graphOf
      rw [hfind]
    refine ⟨?_, ?_, ?_, ?_, ?_, ?_⟩
    · intro q
      simp only [hPI]
      by_cases hq : fenBeq i.fen q
      · unfold graphOf
        rw [findPos_setPos_same hq, ← findPos_congr hq, hfind]
      · unfold graphOf
        rw [findPos_setPos_other (by simpa using hq)]
    · intro q
      simp only [hPI]
      by_cases hq : fenBeq i.fen q
      · unfold freqOf
        rw [findPos_setPos_same hq, ← findPos_congr hq, hfind, if_pos hq]
      · unfold freqOf
        rw [findPos_setPos_other (by simpa using hq), if_neg hq, add_zero]
    · simp only [hPI]
      intro k p' hfp'
      by_cases hq : fenBeq i.fen k
      · rw [findPos_setPos_same hq] at hfp'
        injection hfp' with hfp'
        rw [← hfp']
        have h1 := hwf i.fen p0 hfind
        have h2 := hcoh i.fen k hq
        exact h1.trans h2
      · rw [findPos_setPos_other (by simpa using hq)] at hfp'
        exact hwf k p' hfp'
    · simp only [hPI]
      have hturn := hwf i.fen p0 hfind
      by_cases hc : e.turn p0.board = me ∧ p0.transitions.length = 0
      · rw [if_pos hc]
        have hleaf : leafOwnerB e me (graphOf t) i.fen = true := by
          unfold leafOwnerB
          rw [hgq]
          have h1 : e.turn (e.fromFen i.fen.fenStr) = me := hturn ▸ hc.1
          have h2 : p0.transitions = [] := List.length_eq_zero.mp hc.2
          simp [h1, h2]
        rw [hleaf, if_pos rfl]
      · rw [if_neg hc]
        have hleaf : leafOwnerB e me (graphOf t) i.fen = false := by
          unfold leafOwnerB
          rw [hgq]
          rcases Decidable.not_and_iff_or_not.mp hc with h1 | h1
          · have hne : e.turn (e.fromFen i.fen.fenStr) ≠ me := fun hh =>
              h1 (hturn.symm ▸ hh)
            simp [hne]
          · have hne : p0.transitions ≠ [] := fun hh => h1 (by simp [hh])
            cases htr : p0.transitions with
            | nil => exact absurd htr hne
            | cons a l => simp
        rw [hleaf]
        simp
    · intro F
      simp only [hPI, hgq, List.map_map]
      rfl
    · intro kw hkw
      rw [hgq] at hkw
      obtain ⟨kt, hkt, hkt2⟩ := List.mem_map.mp hkw
      refine ⟨⟨kt.1, i.fdelta * kt.2.frequency, i.ply + 1,
        i.sequence ++ [kt.2.mv]⟩, ?_, ?_, ?_⟩
      · simp only [hPI]
        exact List.mem_map_of_mem _ hkt
      · rw [← hkt2]
      · rw [← hkt2]
  | none =>
    have hPI : processItem e me t i =
        (setPos (t ++ [(i.fen, newPosition e i.fen)]) i.fen
          ⟨i.fen, e.fromFen i.fen.fenStr, 0 + i.fdelta, [], i.sequence⟩,
         (if e.turn (e.fromFen i.fen.fenStr) = me ∧
            ([] : List (FenT × TransitionT)).length = 0 then
            ((i.ply / 2 : Nat) : ℚ) * i.fdelta else 0),
         []) := by
      unfold processItem getOrCreate newPosition
      rw [hfind]
      rfl
    have hgnone : graphOf t i.fen = [] := by
      unfold graphOf
      rw [hfind]
    have hfother : ∀ q, fenBeq i.fen q = false →
        findPos (setPos (t ++ [(i.fen, newPosition e i.fen)]) i.fen
          (⟨i.fen, e.fromFen i.fen.fenStr, 0 + i.fdelta, [], i.sequence⟩ :
            PositionT B)) q = findPos t q := by
      intro q hq
      rw [findPos_setPos_other hq, findPos_append_single]
      cases hfq : findPos t q with
      | some p1 => rfl
      | none => rw [hq]; rfl
    refine ⟨?_, ?_, ?_, ?_, ?_, ?_⟩
    · intro q
      simp only [hPI]
      by_cases hq : fenBeq i.fen q
      · unfold graphOf
        rw [findPos_setPos_same hq, ← findPos_congr hq, hfind]
        rfl
      · unfold graphOf
        rw [hfother q (by simpa using hq)]
    · intro q
      simp only [hPI]
      by_cases hq : fenBeq i.fen q
      · unfold freqOf
        rw [findPos_setPos_same hq, ← findPos_congr hq, hfind, if_pos hq]
      · unfold freqOf
        rw [hfother q (by simpa using hq), if_neg hq, add_zero]
    · simp only [hPI]
      intro k p' hfp'
      by_cases hq : fenBeq i.fen k
      · rw [findPos_setPos_same hq] at hfp'
        injection hfp' with hfp'
        rw [← hfp']
        exact hcoh i.fen k hq
      · rw [hfother k (by simpa using hq)] at hfp'
        exact hwf k p' hfp'
    · simp only [hPI]
      by_cases hturn : e.turn (e.fromFen i.fen.fenStr) = me
      · have hleaf : leafOwnerB e me (graphOf t) i.fen = true := by
          unfold leafOwnerB
          rw [hgnone]
          simp [hturn]
        rw [hleaf, if_pos rfl, if_pos ⟨hturn, rfl⟩]
      · have hleaf : leafOwnerB e me (graphOf t) i.fen = false := by
          unfold leafOwnerB
          rw [hgnone]
          simp [hturn]
        rw [hleaf]
        simp only [Bool.false_eq_true, if_false]
        rw [if_neg (fun hc => hturn hc.1)]
    · intro F
      simp only [hPI, hgnone]
      rfl
    · intro kw hkw
      rw [hgnone] at hkw
      simp at hkw

theorem ablMass_eq_zero_of_c {B : Type} {e : RulesEngine B} {me : PlayerT}
    {g : FenT → List (FenT × ℚ)} :
    ∀ (n : Nat) (u : FenT) (c : ℚ) (ply : Nat), c = 0 →
      ablMass e me g n u c ply = 0 := by
  intro n
  induction n with
  | zero =>
    intro u c ply hc
    rw [ablMass_zero, hc]
    simp
  | succ n ih =>
    intro u c ply hc
    rw [ablMass_succ, hc]
    have hsum : ((g u).map
        (fun kw => ablMass e me g n kw.1 (0 * kw.2) (ply + 1))).sum = 0 := by
      apply List.sum_eq_zero
      intro x hx
      obtain ⟨kw, hkw, hx2⟩ := List.mem_map.mp hx
      rw [← hx2]
      exact ih kw.1 (0 * kw.2) (ply + 1) (by ring)
    rw [hsum]
    simp

theorem runProp_spec {B : Type} (e : RulesEngine B) (me : PlayerT)
    (hcoh : TurnCoh e) :
    ∀ (fuel : Nat) (wl : List FrequencyDelta) (t : TreeT B) (abl : ℚ)
      (tf : TreeT B) (ablf : ℚ),
      runProp e me fuel wl t abl = some (tf, ablf) →
      GNodup (graphOf t) → WfTurn e t →
      (∀ q, graphOf tf q = graphOf t q) ∧
      (∀ v, freqOf tf v = freqOf t v +
        (wl.map (fun i => i.fdelta * pathMass (graphOf t) v fuel i.fen)).sum) ∧
      (ablf = abl +
        (wl.map (fun i =>
          ablMass e me (graphOf t) fuel i.fen i.fdelta i.ply)).sum) ∧
      (∀ i ∈ wl, Vanish (graphOf t) i.fdelta i.fen fuel) := by
  intro fuel
  induction fuel with
  | zero =>
    intro wl t abl tf ablf h hnd hwf
    cases wl with
    | nil =>
      simp only [runProp, Option.some.injEq, Prod.mk.injEq] at h
      obtain ⟨h1, h2⟩ := h
      subst h1
      subst h2
      refine ⟨fun q => rfl, fun v => by simp, by simp, by simp⟩
    | cons i wl => simp [runProp] at h
  | succ fuel ih =>
    intro wl t abl tf ablf h hnd hwf
    cases wl with
    | nil =>
      simp only [runProp, Option.some.injEq, Prod.mk.injEq] at h
      obtain ⟨h1, h2⟩ := h
      subst h1
      subst h2
      refine ⟨fun q => rfl, fun v => by simp, by simp, by simp⟩
    | cons i wl =>
      simp only [runProp] at h
      by_cases hz : i.fdelta = 0
      · rw [if_pos hz] at h
        obtain ⟨hg, hfreq, habl, hvan⟩ := ih wl t abl tf ablf h hnd hwf
        refine ⟨hg, ?_, ?_, ?_⟩
        · intro v
          rw [hfreq v, List.map_cons, List.sum_cons, hz, zero_mul, zero_add]
          congr 1
          apply congrArg List.sum
          apply List.map_congr_left
          intro j hj
          exact (pathMass_stab hnd fuel j.fen j.fdelta
            (vanish_mono (hvan j hj) (Nat.le_succ fuel))).symm
        · rw [habl, List.map_cons, List.sum_cons,
            ablMass_eq_zero_of_c (fuel + 1) i.fen i.fdelta i.ply hz, zero_add]
          congr 1
          apply congrArg List.sum
          apply List.map_congr_left
          intro j hj
          exact (ablMass_stab hnd fuel j.fen j.fdelta j.ply
            (vanish_mono (hvan j hj) (Nat.le_succ fuel))).symm
        · intro j hj
          rcases List.mem_cons.mp hj with h1 | h1
          · subst h1
            rw [hz]
            exact vanish_zero
          · exact vanish_mono (hvan j h1) (Nat.le_succ fuel)
      · rw [if_neg hz] at h
        obtain ⟨hg1, hfreq1, hwf1, habld, hFsum, hpush⟩ :=
          processItem_spec e me t i hwf hcoh
        have hgfun : graphOf (processItem e me t i).1 = graphOf t := funext hg1
        have hnd1 : GNodup (graphOf (processItem e me t i).1) := by
          rw [hgfun]; exact hnd
        obtain ⟨hg, hfreq, habl, hvan⟩ := ih _ _ _ _ _ h hnd1 hwf1
        rw [hgfun] at hg hfreq habl hvan
        refine ⟨?_, ?_, ?_, ?_⟩
        · exact hg
        · intro v
          have hps : (((processItem e me t i).2.2).map
              (fun j => j.fdelta * pathMass (graphOf t) v fuel j.fen)).sum =
              ((graphOf t i.fen).map
                (fun kw => i.fdelta * kw.2
                  * pathMass (graphOf t) v fuel kw.1)).sum :=
            hFsum (fun fen c _ => c * pathMass (graphOf t) v fuel fen)
          have hwlstab : (wl.map (fun j =>
              j.fdelta * pathMass (graphOf t) v fuel j.fen)).sum =
              (wl.map (fun j =>
                j.fdelta * pathMass (graphOf t) v (fuel + 1) j.fen)).sum := by
            apply congrArg List.sum
            apply List.map_congr_left
            intro j hj
            exact (pathMass_stab hnd fuel j.fen j.fdelta
              (vanish_mono (hvan j (List.mem_append.mpr (Or.inr hj)))
                (Nat.le_succ fuel))).symm
          have hiterm : i.fdelta * pathMass (graphOf t) v (fuel + 1) i.fen =
              (if fenBeq i.fen v then i.fdelta else 0) +
                ((graphOf t i.fen).map
                  (fun kw => i.fdelta * kw.2
                    * pathMass (graphOf t) v fuel kw.1)).sum := by
            rw [pathMass_succ, mul_add, ← sum_map_mul_left_rat]
            congr 1
            · by_cases hv : fenBeq i.fen v
              · simp [hv]
              · simp [hv]
            · apply congrArg List.sum
              apply List.map_congr_left
              intro kw _
              ring
          rw [hfreq v, hfreq1 v, List.map_append, List.sum_append,
            List.map_reverse, List.sum_reverse, hps, hwlstab,
            List.map_cons, List.sum_cons, hiterm]
          ring
        · have hps : (((processItem e me t i).2.2).map
              (fun j => ablMass e me (graphOf t) fuel j.fen j.fdelta j.ply)).sum =
              ((graphOf t i.fen).map
                (fun kw => ablMass e me (graphOf t) fuel kw.1
                  (i.fdelta * kw.2) (i.ply + 1))).sum :=
            hFsum (fun fen c ply => ablMass e me (graphOf t) fuel fen c ply)
          have hwlstab : (wl.map (fun j =>
              ablMass e me (graphOf t) fuel j.fen j.fdelta j.ply)).sum =
              (wl.map (fun j =>
                ablMass e me (graphOf t) (fuel + 1) j.fen j.fdelta j.ply)).sum := by
            apply congrArg List.sum
            apply List.map_congr_left
            intro j hj
            exact (ablMass_stab hnd fuel j.fen j.fdelta j.ply
              (vanish_mono (hvan j (List.mem_append.mpr (Or.inr hj)))
                (Nat.le_succ fuel))).symm
          rw [habl, habld, List.map_append, List.sum_append,
            List.map_reverse, List.sum_reverse, hps, hwlstab,
            List.map_cons, List.sum_cons, ablMass_succ]
          ring
        · intro j hj
          rcases List.mem_cons.mp hj with h1 | h1
          · subst h1
            apply vanish_back (graphOf_gcong t)
            intro kw hkw
            obtain ⟨j2, hj2mem, hj2fen, hj2fd⟩ := hpush kw hkw
            have hV := hvan j2
              (List.mem_append.mpr (Or.inl (List.mem_reverse.mpr hj2mem)))
            rw [hj2fen, hj2fd] at hV
            exact hV
          · exact vanish_mono (hvan j (List.mem_append.mpr (Or.inr h1)))
              (Nat.le_succ fuel)

theorem leafOwnerB_iff {B : Type} (e : RulesEngine B) (me : PlayerT)
    (g : FenT → List (FenT × ℚ)) (k : FenT) :
    leafOwnerB e me g k = true ↔
      (e.turn (e.fromFen k.fenStr) = me ∧ g k = []) := by
  unfold leafOwnerB
  rw [Bool.and_eq_true, decide_eq_true_iff, List.isEmpty_iff]

/-- C1: if update_position_frequencies terminates within some fuel starting
from a graph with zero accumulated frequencies, then every node's
accumulated frequency equals the sum, over all valid paths from the
starting position to that node of length below the fuel bound, of the
products of the edge weights along each path; moreover every valid path at
or beyond the bound carries zero product weight, so the equality covers the
sum over all finite paths (mass from distinct arrival paths is summed,
never overwritten). -/
theorem c1_propagation_pathsum {B : Type} (e : RulesEngine B) (me : PlayerT)
    (t : TreeT B) (fuel : Nat) (tf : TreeT B) (ablf : ℚ)
    (hrun : updatePositionFrequencies e me t 0 fuel = some (tf, ablf))
    (hnd : GNodup (graphOf t)) (hwf : WfTurn e t) (hcoh : TurnCoh e)
    (hfreq0 : ∀ v, freqOf t v = 0) :
    (∀ v, freqOf tf v = pathSumUpTo (graphOf t) startingFen v fuel) ∧
    (∀ rest, pathOkB (graphOf t) startingFen rest = true →
      fuel ≤ rest.length → pathProd (graphOf t) startingFen rest = 0) := by
  unfold updatePositionFrequencies at hrun
  obtain ⟨hg, hfreq, habl, hvan⟩ :=
    runProp_spec e me hcoh fuel _ t 0 tf ablf hrun hnd hwf
  constructor
  · intro v
    have hv := hfreq v
    simp only [List.map_cons, List.map_nil, List.sum_cons, List.sum_nil,
      add_zero] at hv
    rw [hfreq0 v, zero_add] at hv
    rw [hv]
    have hone : (⟨startingFen, 1, 0, []⟩ : FrequencyDelta).fdelta *
        pathMass (graphOf t) v fuel
          (⟨startingFen, 1, 0, []⟩ : FrequencyDelta).fen =
        pathMass (graphOf t) v fuel startingFen := one_mul _
    rw [hone, pathMass_eq_pathSumUpTo hnd v fuel startingFen]
  · intro rest hok hlen
    have hv := hvan ⟨startingFen, 1, 0, []⟩ (List.mem_singleton.mpr rfl)
    have := hv rest hok hlen
    simpa using this

theorem c1_propagation_pathsum_witness :
    freqOf [(startingFen, (⟨startingFen, (), 1, [], []⟩ : PositionT Unit))]
        startingFen =
      pathSumUpTo (graphOf ([] : TreeT Unit)) startingFen startingFen 2 :=
  (c1_propagation_pathsum trivEngine .white [] 2
    [(startingFen, (⟨startingFen, (), 1, [], []⟩ : PositionT Unit))] 0
    (by simp [updatePositionFrequencies, runProp, processItem, getOrCreate,
      findPos, setPos, newPosition, trivEngine, fenBeq_refl])
    (fun u => List.Pairwise.nil)
    (fun k p hp => by simp [findPos] at hp)
    (fun a b h => rfl)
    (fun v => rfl)).1 startingFen

/-- C6: during update_position_frequencies, processing a popped work item
of nonzero mass adds floor(ply/2) times the mass to average_book_length
exactly when the item's node has the owner to move and no outgoing edges
(and adds nothing otherwise); consequently a terminating run started with
accumulator 0 ends with the sum of those contributions, namely the sum over
all bounded valid root paths ending at an unprepared owner leaf of
floor(path length / 2) times the path's arriving mass. -/
theorem c6_average_book_length {B : Type} (e : RulesEngine B) (me : PlayerT)
    (t : TreeT B) (fuel : Nat) (tf : TreeT B) (ablf : ℚ)
    (hrun : updatePositionFrequencies e me t 0 fuel = some (tf, ablf))
    (hnd : GNodup (graphOf t)) (hwf : WfTurn e t) (hcoh : TurnCoh e) :
    (∀ (t0 : TreeT B) (i : FrequencyDelta), WfTurn e t0 →
      (processItem e me t0 i).2.1 =
        if e.turn (e.fromFen i.fen.fenStr) = me ∧ graphOf t0 i.fen = [] then
          ((i.ply / 2 : Nat) : ℚ) * i.fdelta
        else 0) ∧
    ablf = ablSumUpTo e me (graphOf t) startingFen fuel := by
  constructor
  · intro t0 i hwf0
    obtain ⟨_, _, _, habld, _, _⟩ := processItem_spec e me t0 i hwf0 hcoh
    rw [habld]
    by_cases hc : e.turn (e.fromFen i.fen.fenStr) = me ∧ graphOf t0 i.fen = []
    · rw [if_pos ((leafOwnerB_iff e me (graphOf t0) i.fen).mpr hc), if_pos hc]
    · rw [if_neg hc, if_neg (fun hh =>
        hc ((leafOwnerB_iff e me (graphOf t0) i.fen).mp hh))]
  · unfold updatePositionFrequencies at hrun
    obtain ⟨hg, hfreq, habl, hvan⟩ :=
      runProp_spec e me hcoh fuel _ t 0 tf ablf hrun hnd hwf
    simp only [List.map_cons, List.map_nil, List.sum_cons, List.sum_nil,
      add_zero, zero_add] at habl
    rw [habl]
    have hb := @ablMass_eq_sum B e me (graphOf t) hnd fuel startingFen 1 0
    rw [show ablMass e me (graphOf t) fuel
        (⟨startingFen, 1, 0, []⟩ : FrequencyDelta).fen
        (⟨startingFen, 1, 0, []⟩ : FrequencyDelta).fdelta
        (⟨startingFen, 1, 0, []⟩ : FrequencyDelta).ply =
      ablMass e me (graphOf t) fuel startingFen 1 0 from rfl, hb]
    unfold ablSumUpTo
    apply congrArg List.sum
    apply List.map_congr_left
    intro rest _
    rw [zero_add, one_mul]

theorem c6_average_book_length_witness :
    (0 : ℚ) = ablSumUpTo trivEngine .white (graphOf ([] : TreeT Unit))
      startingFen 2 :=
  (c6_average_book_length trivEngine .white [] 2
    [(startingFen, (⟨startingFen, (), 1, [], []⟩ : PositionT Unit))] 0
    (by simp [updatePositionFrequencies, runProp, processItem, getOrCreate,
      findPos, setPos, newPosition, trivEngine, fenBeq_refl])
    (fun u => List.Pairwise.nil)
    (fun k p hp => by simp [findPos] at hp)
    (fun a b h => rfl)).2
